import Mathlib

/-!
# A verification development for the `yaz0` codec

This file gives a shallow embedding of the `yaz0` Rust crate (files
`src/deflate.rs`, `src/inflate.rs`, `src/header.rs`, `src/error.rs`) and proves
properties of the encoder, the decoder and the header parser.

Conventions of the embedding:
* Byte streams are `List Nat`; a list entry models a `u8`, so every read site
  that uses a byte arithmetically reduces it `% 256` (the semantics of reading
  a `u8`).  Machine-integer casts (`as u8`, `as u32`) are modelled with
  explicit `% 256` / `% 4294967296`; `>> k` on an unsigned value is `/ 2^k`
  and `& 0xff` is `% 256`.
* `usize` subtraction that cannot underflow at its call sites is `Nat`
  subtraction; where the source could panic (integer division by zero,
  slice-index panics, `assert!`), the model returns `none`.
* Fallible readers return `Option`/`Except`; a short read is the `Io` error.
* Loops whose progress measure is not structural carry an explicit fuel
  argument; the public wrappers instantiate the fuel with a provably
  sufficient value, so the wrappers equal the unbounded loops.
-/

namespace Yaz0

/-- `error.rs`: the two-variant error type.  The payload of `Io` (the wrapped
`io::Error`) is irrelevant to the control flow and is dropped. -/
inductive Error where
  | Io : Error
  | InvalidMagic : Error
deriving DecidableEq, Repr

/-! ## `header.rs` -/

/-- The four magic bytes `b"Yaz0"`. -/
def yaz0Magic : List Nat := [0x59, 0x61, 0x7a, 0x30]

/-- The header on a Yaz0 file (`header.rs`). -/
structure Yaz0Header where
  expected_size : Nat
deriving DecidableEq, Repr

/-- `Yaz0Header::parse`: reads 4 magic bytes (`read_exact`), compares them with
`b"Yaz0"`, reads a big-endian `u32`, then seeks 8 bytes forward.  Returns the
header together with the reader position (16), where the data block starts.
Seeking forward past the end of a cursor succeeds, so only the first 8 bytes
must be present.  A short read is an `Io` error. -/
def Yaz0Header.parse (file : List Nat) : Except Error (Yaz0Header × Nat) :=
  match file with
  | m0 :: m1 :: m2 :: m3 :: rest =>
    if [m0 % 256, m1 % 256, m2 % 256, m3 % 256] ≠ yaz0Magic then
      .error .InvalidMagic
    else
      match rest with
      | b0 :: b1 :: b2 :: b3 :: _ =>
        -- big-endian u32
        .ok (⟨(b0 % 256) * 16777216 + (b1 % 256) * 65536 + (b2 % 256) * 256 + b3 % 256⟩, 16)
      | _ => .error .Io
  | _ => .error .Io

/-- `Yaz0Header::write`: magic, `expected_size as u32` big-endian, 8 zero bytes. -/
def Yaz0Header.write (h : Yaz0Header) : List Nat :=
  let u := h.expected_size % 4294967296
  yaz0Magic ++ [u / 16777216 % 256, u / 65536 % 256, u / 256 % 256, u % 256] ++
    List.replicate 8 0

/-! ## `deflate.rs`: runs and the two searches -/

/-- A compression run of length `length` starting at `cursor` (`deflate.rs`). -/
structure Run where
  cursor : Nat
  length : Nat
deriving DecidableEq, Repr

/-- `Run::zero`. -/
def Run.zero : Run := ⟨0, 0⟩

/-- `Run::swap_if_better`: keep `self` only when it is strictly longer. -/
def Run.swap_if_better (self other : Run) : Run :=
  if other.length < self.length then self else other

/-- The incremental match check of `find_naive_run`: compare
`src[search_head + r]` with `src[cursor + r]` while `r < bound`; returns the
number of initial equal bytes.  In `find_naive_run` the bound is
`src.len() - cursor`, so every access is in bounds there. -/
def matchLenF (src : List Nat) : Nat → Nat → Nat → Nat
  | _, _, 0 => 0
  | search_head, cursor, bound + 1 =>
    if src.getD search_head 0 = src.getD cursor 0 then
      matchLenF src (search_head + 1) (cursor + 1) bound + 1
    else 0

/-- Length of the match between positions `search_head` and `cursor`, bounded
by `src.length - cursor` exactly as the `while runlength < src.len() - cursor`
loop of `find_naive_run`. -/
def matchLen (src : List Nat) (search_head cursor : Nat) : Nat :=
  matchLenF src search_head cursor (src.length - cursor)

/-- The `for search_head in search_start..cursor` fold of `find_naive_run`:
`count` candidates starting at `search_head`. -/
def findNaiveFold (src : List Nat) (cursor : Nat) : Run → Nat → Nat → Run
  | run, _, 0 => run
  | run, search_head, count + 1 =>
    findNaiveFold src cursor
      (run.swap_if_better ⟨search_head, matchLen src search_head cursor⟩)
      (search_head + 1) count

/-- `find_naive_run`: scan every start in `[cursor - lookback, cursor)`
(`saturating_sub` is `Nat` subtraction) and keep the best run. -/
def find_naive_run (src : List Nat) (cursor lookback : Nat) : Run :=
  let search_start := cursor - lookback
  findNaiveFold src cursor Run.zero search_start (cursor - search_start)

/-- `find_lookahead_run`: take the naive run; if it is worthwhile (≥ 3) and the
naive run one byte further is at least 2 longer, signal a lookahead hit and
return that run instead. -/
def find_lookahead_run (src : List Nat) (cursor lookback : Nat) : Bool × Run :=
  if 3 ≤ (find_naive_run src cursor lookback).length then
    if (find_naive_run src cursor lookback).length + 2 ≤
        (find_naive_run src (cursor + 1) lookback).length then
      (true, find_naive_run src (cursor + 1) lookback)
    else (false, find_naive_run src cursor lookback)
  else (false, find_naive_run src cursor lookback)

/-- `write_run`: encode a run as a 2-byte (length 3..17) or 3-byte
(length ≥ 18, clipped to 273) packet.  Returns the packet bytes (the
`ArrayVec` pushes) and the number of input bytes the packet consumes.
`dist as u32` is `% 4294967296`; `as u8` casts are `% 256`; `x >> 8` is
`/ 256`; `& 0xff` is `% 256`; the wrapping `run.length as u8 - 2` is
`(run.length % 256 + 254) % 256`. -/
def write_run (read_head : Nat) (run : Run) : List Nat × Nat :=
  let dist := read_head - run.cursor - 1
  if 0x12 ≤ run.length then
    let actual_runlength := min run.length (0xff + 0x12)
    ([dist % 4294967296 / 256 % 256,
      dist % 4294967296 % 256,
      (actual_runlength - 0x12) % 256],
     actual_runlength)
  else
    ([((run.length % 256 + 254) % 256 * 16) % 256 ||| dist % 4294967296 / 256 % 256,
      dist % 4294967296 % 256],
     run.length)

/-- `CompressionLevel` (`deflate.rs`). -/
inductive CompressionLevel where
  | Naive (quality : Nat)
  | Lookahead (quality : Nat)
deriving DecidableEq, Repr

/-- The `quality` field common to both variants. -/
def CompressionLevel.quality : CompressionLevel → Nat
  | .Naive q => q
  | .Lookahead q => q

/-- Result of one 8-packet group of `compress_lookaround`'s inner loop. -/
structure GroupOut where
  codon : Nat
  packets : List Nat
  read_head : Nat
  cache : Option Run
deriving DecidableEq, Repr

/-- The inner `while packet_n < 8` loop of `compress_lookaround`; `fuel` is the
number of remaining packet slots (so `packet_n = 8 - fuel`).  Faithful points:
the lookahead cache is `take()`n at the top of each slot; a lookahead hit
refills it and forces the literal branch; a run of length ≥ 3 is written with
`write_run`; otherwise the loop breaks at end of input or pushes the literal
`src[read_head]` and marks codon bit `0x80 >> packet_n`. -/
def encodePackets (src : List Nat) (level : CompressionLevel) (lookback : Nat) :
    Nat → Nat → Option Run → Nat → List Nat → GroupOut
  | 0, read_head, cache, codon, packets => ⟨codon, packets, read_head, cache⟩
  | fuel + 1, read_head, cache, codon, packets =>
    let hit_best : Bool × Run :=
      match cache with
      | some c => (false, c)
      | none =>
        match level with
        | .Lookahead _ => find_lookahead_run src read_head lookback
        | .Naive _ => (false, find_naive_run src read_head lookback)
    let cache' : Option Run := if hit_best.1 then some hit_best.2 else none
    if 3 ≤ hit_best.2.length ∧ hit_best.1 = false then
      let wr := write_run read_head hit_best.2
      encodePackets src level lookback fuel (read_head + wr.2) cache' codon (packets ++ wr.1)
    else
      if src.length ≤ read_head then ⟨codon, packets, read_head, cache'⟩
      else
        encodePackets src level lookback fuel (read_head + 1) cache'
          (codon ||| 0x80 >>> (8 - (fuel + 1)))
          (packets ++ [src.getD read_head 0])

/-- The outer `while read_head < src.len()` loop of `compress_lookaround`.
Beyond the encoded bytes it returns, as observation traces, the list of
`ProgressMsg.read_head` values sent over the progress channel (`send` appends;
send errors are ignored, which does not change the trace) and the list of
`read_head` values at the end of each 8-packet group.  `fuel` bounds the
number of groups; every group advances `read_head` (proved below), so fuel
`src.length - read_head` is exact. -/
def compressLoopF (src : List Nat) (level : CompressionLevel) (lookback : Nat) :
    Nat → Nat → Option Run → List Nat × List Nat × List Nat
  | 0, _, _ => ([], [], [])
  | fuel + 1, read_head, cache =>
    if read_head < src.length then
      match encodePackets src level lookback 8 read_head cache 0 [] with
      | ⟨codon, packets, read_head', cache'⟩ =>
        match compressLoopF src level lookback fuel read_head' cache' with
        | (restEnc, restProg, restEnds) =>
          (codon :: packets ++ restEnc,
           (if read_head' % 10 = 0 ∨ read_head' = src.length - 1 then
              read_head' :: restProg
            else restProg),
           read_head' :: restEnds)
    else ([], [], [])

/-- `compress_lookaround`: computes the lookback window
`MAX_LOOKBACK / (quality as f32 / 10.).floor()`.  For the documented range
`quality ≤ 10` the float floor equals `quality / 10` in `Nat`; a zero divisor
is an integer division-by-zero panic in Rust, modelled as `none`.  Returns
`(encoded, progress trace, group-end trace)`. -/
def compress_lookaround (src : List Nat) (level : CompressionLevel) :
    Option (List Nat × List Nat × List Nat) :=
  let quality := level.quality
  let divisor := quality / 10
  if divisor = 0 then none
  else some (compressLoopF src level (0x1000 / divisor) src.length 0 none)

/-- `compress` (and `compress_with_progress`): just the encoded payload. -/
def compress (data : List Nat) (level : CompressionLevel) : Option (List Nat) :=
  (compress_lookaround data level).map (·.1)

/-- `Yaz0Writer::compress_and_write`: header (with `expected_size = data.len()`)
followed by the compressed payload.  The writer sink is modelled as the
returned list; writer I/O errors are external and out of scope here. -/
def compress_and_write (data : List Nat) (level : CompressionLevel) : Option (List Nat) :=
  match compress data level with
  | some enc => some (Yaz0Header.write ⟨data.length⟩ ++ enc)
  | none => none

/-! ## `inflate.rs`: the decoder -/

/-- The `for i in 0..copy_len` loop of `decompress_into`: copy
`dest[dest_pos] = dest[run_base + i]` one byte at a time.  A slice index out
of bounds panics in Rust; modelled as `none`.  Returns the new buffer and the
new `dest_pos`. -/
def copyRun : List Nat → Nat → Nat → Nat → Option (List Nat × Nat)
  | dest, _, dest_pos, 0 => some (dest, dest_pos)
  | dest, run_base, dest_pos, n + 1 =>
    if run_base < dest.length ∧ dest_pos < dest.length then
      copyRun (dest.set dest_pos (dest.getD run_base 0)) (run_base + 1) (dest_pos + 1) n
    else none

/-- The `while dest_pos < expected_size` loop of `decompress_into`.  Reading a
`u8` takes the head of `input` (mod 256); an exhausted reader is an `Io`
error (`none`).  `code_byte & 0x80 != 0` on a `u8` is `128 ≤ code_byte % 256`;
`code_byte <<= 1` is `% 256 * 2 % 256`.  `dest_pos - (dist + 1)` underflow
(a malformed back-reference) panics in Rust and is `none` here.  Returns the
final buffer and final `dest_pos`.  Every iteration consumes at least one
input byte, so the structural `fuel` argument is irrelevant as soon as it
exceeds `input.length` (`decodeLoopF_congr` below); the wrapper `decodeLoop`
instantiates it that way and is therefore the unbounded loop. -/
def decodeLoopF (expected : Nat) : Nat → List Nat → List Nat → Nat → Nat → Nat →
    Option (List Nat × Nat)
  | 0, _, _, _, _, _ => none
  | fuel + 1, input, dest, dest_pos, ops_left, code_byte =>
    if dest_pos < expected then
      if ops_left = 0 then
        match input with
        | [] => none
        | cb :: rest => decodeLoopF expected fuel rest dest dest_pos 8 (cb % 256)
      else if 128 ≤ code_byte % 256 then
        match input with
        | [] => none
        | b :: rest =>
          if dest_pos < dest.length then
            decodeLoopF expected fuel rest (dest.set dest_pos (b % 256)) (dest_pos + 1)
              (ops_left - 1) (code_byte % 256 * 2 % 256)
          else none
      else
        match input with
        | b1 :: b2 :: rest =>
          let dist := b1 % 16 * 256 + b2 % 256
          if dist + 1 ≤ dest_pos then
            if b1 % 256 / 16 = 0 then
              match rest with
              | [] => none
              | b3 :: rest2 =>
                match copyRun dest (dest_pos - (dist + 1)) dest_pos (b3 % 256 + 0x12) with
                | some (dest', dest_pos') =>
                  decodeLoopF expected fuel rest2 dest' dest_pos'
                    (ops_left - 1) (code_byte % 256 * 2 % 256)
                | none => none
            else
              match copyRun dest (dest_pos - (dist + 1)) dest_pos (b1 % 256 / 16 + 2) with
              | some (dest', dest_pos') =>
                decodeLoopF expected fuel rest dest' dest_pos'
                  (ops_left - 1) (code_byte % 256 * 2 % 256)
              | none => none
          else none
        | _ => none
    else some (dest, dest_pos)

/-- The decode loop itself (see `decodeLoopF`). -/
def decodeLoop (expected : Nat) (input dest : List Nat) (dest_pos ops_left code_byte : Nat) :
    Option (List Nat × Nat) :=
  decodeLoopF expected (input.length + 1) input dest dest_pos ops_left code_byte

/-- `Yaz0Archive::decompress_into`: asserts `dest.len() >= expected_size`
(panic modelled as `none`), then runs the decode loop from position 0 with an
empty codon. -/
def decompress_into (expected : Nat) (input dest : List Nat) : Option (List Nat × Nat) :=
  if expected ≤ dest.length then decodeLoop expected input dest 0 0 0 else none

/-- `Yaz0Archive::decompress`: allocate `expected` zero bytes and decode. -/
def decompress (expected : Nat) (input : List Nat) : Option (List Nat) :=
  match decompress_into expected input (List.replicate expected 0) with
  | some (dest, _) => some dest
  | none => none

/-- `Yaz0Archive::new` followed by `decompress`: parse the header, then decode
the bytes after `data_start`. -/
def archiveDecompress (file : List Nat) : Option (List Nat) :=
  match Yaz0Header.parse file with
  | .ok (h, data_start) => decompress h.expected_size (file.drop data_start)
  | .error _ => none

/-! ## Specification predicates -/

/-- A run usable as a back-reference at `cursor`: it starts inside the window,
before `cursor`, its length is bounded by the remaining input, and it really
matches the data at `cursor`. -/
def GoodRun (src : List Nat) (lookback cursor : Nat) (r : Run) : Prop :=
  r.cursor < cursor ∧ cursor - r.cursor ≤ lookback ∧ r.length ≤ src.length - cursor ∧
    ∀ j < r.length, src.getD (r.cursor + j) 0 = src.getD (cursor + j) 0

/-- Invariant of the lookahead cache: a cached run is a worthwhile (≥ 3)
good run for the current read head. -/
def CacheOk (src : List Nat) (lookback read_head : Nat) : Option Run → Prop
  | none => True
  | some r => 3 ≤ r.length ∧ GoodRun src lookback read_head r

/-- The first `n` entries of `dest` agree with `src`. -/
def AgreesBelow (src dest : List Nat) (n : Nat) : Prop :=
  ∀ i, i < n → dest.getD i 0 = src.getD i 0

/-- The slot decision at the top of each packet slot of the encoder's inner
loop: the `take()`n cache wins, otherwise the configured search runs. -/
def slotChoice (src : List Nat) (level : CompressionLevel) (lookback read_head : Nat) :
    Option Run → Bool × Run
  | some c => (false, c)
  | none =>
    match level with
    | .Lookahead _ => find_lookahead_run src read_head lookback
    | .Naive _ => (false, find_naive_run src read_head lookback)

/-- Everything the round-trip argument needs to know about one (partial)
8-packet group `g` produced from read head `read_head` with `fuel` slots left
and codon accumulator `codon`: the head advances within bounds, the cache
invariant is maintained, the codon gains only bits of the remaining slots,
the packet arena only grows, and — the heart of the matter — decoding the new
packet bytes from any destination that agrees with `src` below `read_head`
consumes exactly those bytes, reproduces `src` up to the new head, touches
nothing above it, and continues as the loop with a fresh codon. -/
def GroupSpec (src : List Nat) (lookback read_head codon fuel : Nat)
    (packets : List Nat) (g : GroupOut) : Prop :=
  g.read_head ≤ src.length ∧ read_head ≤ g.read_head ∧
  CacheOk src lookback g.read_head g.cache ∧
  ∃ delta newBytes,
    delta < 2 ^ fuel ∧ g.codon = codon + delta ∧ g.packets = packets ++ newBytes ∧
    ∀ dest rest : List Nat, src.length ≤ dest.length → AgreesBelow src dest read_head →
      ∃ dest', dest'.length = dest.length ∧ AgreesBelow src dest' g.read_head ∧
        (∀ i, g.read_head ≤ i → dest'.getD i 0 = dest.getD i 0) ∧
        decodeLoop src.length (newBytes ++ rest) dest read_head fuel
            (delta * 2 ^ (8 - fuel)) =
          decodeLoop src.length rest dest' g.read_head 0 0

/-! ## Small list and arithmetic helpers -/

theorem getD_set_self {l : List Nat} {i v : Nat} (h : i < l.length) :
    (l.set i v).getD i 0 = v := by
  simp [List.getD_eq_getElem?_getD, List.getElem?_set_self h]

theorem getD_set_ne {l : List Nat} {i j v : Nat} (h : i ≠ j) :
    (l.set i v).getD j 0 = l.getD j 0 := by
  simp [List.getD_eq_getElem?_getD, List.getElem?_set_ne h]

theorem getD_lt_of_mem_lt {l : List Nat} {i : Nat} (h : i < l.length)
    (hb : ∀ b ∈ l, b < 256) : l.getD i 0 < 256 := by
  have : l.getD i 0 = l[i] := by simp [List.getD_eq_getElem?_getD, List.getElem?_eq_getElem h]
  rw [this]
  exact hb _ (l.getElem_mem h)

theorem AgreesBelow.mono {src dest : List Nat} {m n : Nat}
    (h : AgreesBelow src dest n) (hmn : m ≤ n) : AgreesBelow src dest m :=
  fun i hi => h i (lt_of_lt_of_le hi hmn)

/-! ## `matchLen` facts -/

theorem matchLenF_le (src : List Nat) :
    ∀ bound search_head cursor, matchLenF src search_head cursor bound ≤ bound := by
  intro bound
  induction bound with
  | zero => intro sh c; simp [matchLenF]
  | succ b ih =>
    intro sh c
    rw [matchLenF]
    split
    · exact Nat.succ_le_succ (ih (sh + 1) (c + 1))
    · exact Nat.zero_le _

theorem matchLenF_spec (src : List Nat) :
    ∀ bound search_head cursor j, j < matchLenF src search_head cursor bound →
      src.getD (search_head + j) 0 = src.getD (cursor + j) 0 := by
  intro bound
  induction bound with
  | zero => intro sh c j hj; simp [matchLenF] at hj
  | succ b ih =>
    intro sh c j hj
    rw [matchLenF] at hj
    split at hj
    case isTrue heq =>
      match j with
      | 0 => simpa using heq
      | j' + 1 =>
        have := ih (sh + 1) (c + 1) j' (by omega)
        simpa [Nat.add_assoc, Nat.add_comm 1 j'] using this
    case isFalse => omega

theorem matchLen_le (src : List Nat) (search_head cursor : Nat) :
    matchLen src search_head cursor ≤ src.length - cursor :=
  matchLenF_le src _ search_head cursor

theorem matchLen_spec (src : List Nat) (search_head cursor : Nat) :
    ∀ j < matchLen src search_head cursor,
      src.getD (search_head + j) 0 = src.getD (cursor + j) 0 :=
  fun j hj => matchLenF_spec src _ search_head cursor j hj

/-! ## Characterisation of the naive search -/

/-- Full characterisation of the candidate fold of `find_naive_run`.  Either
the initial `run` survives (every candidate is strictly shorter), or the
result is the candidate at the **largest** index achieving the maximal match
length (`swap_if_better` keeps the incumbent only under strict `>`, so a tie
replaces it with the newer candidate). -/
theorem findNaiveFold_spec (src : List Nat) (cursor : Nat) :
    ∀ count run search_head,
      (findNaiveFold src cursor run search_head count = run ∧
        ∀ j < count, matchLen src (search_head + j) cursor < run.length) ∨
      (∃ J, J < count ∧
        findNaiveFold src cursor run search_head count =
          ⟨search_head + J, matchLen src (search_head + J) cursor⟩ ∧
        run.length ≤ matchLen src (search_head + J) cursor ∧
        (∀ j < count, matchLen src (search_head + j) cursor ≤
          matchLen src (search_head + J) cursor) ∧
        (∀ j < count, J < j → matchLen src (search_head + j) cursor <
          matchLen src (search_head + J) cursor)) := by
  intro count
  induction count with
  | zero => intro run sh; exact Or.inl ⟨rfl, fun j hj => absurd hj (Nat.not_lt_zero j)⟩
  | succ k ih =>
    intro run sh
    rw [findNaiveFold]
    have hshift : ∀ j : Nat, sh + 1 + j = sh + (j + 1) := by intro j; omega
    by_cases hlt : matchLen src sh cursor < run.length
    · -- the incumbent survives this candidate
      have hrun' : run.swap_if_better ⟨sh, matchLen src sh cursor⟩ = run := by
        simp [Run.swap_if_better, hlt]
      rw [hrun']
      rcases ih run (sh + 1) with ⟨heq, hall⟩ | ⟨J, hJ, heq, hge, hmax, hlater⟩
      · refine Or.inl ⟨heq, ?_⟩
        intro j hj
        match j with
        | 0 => simpa using hlt
        | j' + 1 => rw [← hshift j']; exact hall j' (by omega)
      · rw [hshift J] at heq hge
        refine Or.inr ⟨J + 1, by omega, heq, hge, ?_, ?_⟩
        · intro j hj
          match j with
          | 0 => simpa using le_trans (le_of_lt hlt) hge
          | j' + 1 => rw [← hshift j']; exact hmax j' (by omega) |>.trans_eq (by rw [hshift J])
        · intro j hj hJj
          match j with
          | 0 => omega
          | j' + 1 =>
            rw [← hshift j']
            exact (hlater j' (by omega) (by omega)).trans_eq (by rw [hshift J])
    · -- the candidate replaces the incumbent
      have hrun' : run.swap_if_better ⟨sh, matchLen src sh cursor⟩ =
          ⟨sh, matchLen src sh cursor⟩ := by
        simp [Run.swap_if_better, hlt]
      rw [hrun']
      rcases ih ⟨sh, matchLen src sh cursor⟩ (sh + 1) with
        ⟨heq, hall⟩ | ⟨J, hJ, heq, hge, hmax, hlater⟩
      · simp only [Run.length] at hall
        refine Or.inr ⟨0, by omega, ?_, ?_, ?_, ?_⟩
        · rw [heq]; simp
        · simpa using le_of_not_lt hlt
        · intro j hj
          match j with
          | 0 => simp
          | j' + 1 =>
            rw [← hshift j']
            simpa using le_of_lt (hall j' (by omega))
        · intro j hj h0j
          match j with
          | 0 => omega
          | j' + 1 =>
            rw [← hshift j']
            simpa using hall j' (by omega)
      · simp only [Run.length] at hge
        rw [hshift J] at heq hge hmax hlater
        refine Or.inr ⟨J + 1, by omega, heq, le_trans (le_of_not_lt hlt) hge, ?_, ?_⟩
        · intro j hj
          match j with
          | 0 => simpa using hge
          | j' + 1 => rw [← hshift j']; exact hmax j' (by omega)
        · intro j hj hJj
          match j with
          | 0 => omega
          | j' + 1 => rw [← hshift j']; exact hlater j' (by omega) (by omega)

/-- A naive run that found anything at all is a good run. -/
theorem find_naive_run_good (src : List Nat) (cursor lookback : Nat)
    (h : 1 ≤ (find_naive_run src cursor lookback).length) :
    GoodRun src lookback cursor (find_naive_run src cursor lookback) := by
  have hspec := findNaiveFold_spec src cursor (cursor - (cursor - lookback))
    Run.zero (cursor - lookback)
  rw [show findNaiveFold src cursor Run.zero (cursor - lookback)
      (cursor - (cursor - lookback)) = find_naive_run src cursor lookback from rfl] at hspec
  rcases hspec with ⟨heq, _⟩ | ⟨J, hJ, heq, _, _, _⟩
  · rw [heq] at h; simp [Run.zero] at h
  · rw [heq]
    refine ⟨?_, ?_, matchLen_le src _ cursor, ?_⟩
    · show cursor - lookback + J < cursor
      omega
    · show cursor - (cursor - lookback + J) ≤ lookback
      omega
    · intro j hj
      exact matchLen_spec src _ cursor j hj

/-- At or past the end of the input every match has length 0. -/
theorem find_naive_run_length_zero (src : List Nat) (cursor lookback : Nat)
    (h : src.length ≤ cursor) : (find_naive_run src cursor lookback).length = 0 := by
  have hspec := findNaiveFold_spec src cursor (cursor - (cursor - lookback))
    Run.zero (cursor - lookback)
  rw [show findNaiveFold src cursor Run.zero (cursor - lookback)
      (cursor - (cursor - lookback)) = find_naive_run src cursor lookback from rfl] at hspec
  rcases hspec with ⟨heq, _⟩ | ⟨J, hJ, heq, _, _, _⟩
  · rw [heq]; rfl
  · rw [heq]
    show matchLen src _ cursor = 0
    unfold matchLen
    rw [show src.length - cursor = 0 from by omega]
    rfl

theorem find_lookahead_run_false (src : List Nat) (cursor lookback : Nat)
    (h : (find_lookahead_run src cursor lookback).1 = false) :
    (find_lookahead_run src cursor lookback).2 = find_naive_run src cursor lookback := by
  unfold find_lookahead_run at h ⊢
  split_ifs at h ⊢ with h3 h5 <;> rfl

theorem find_lookahead_run_true (src : List Nat) (cursor lookback : Nat)
    (h : (find_lookahead_run src cursor lookback).1 = true) :
    (find_lookahead_run src cursor lookback).2 = find_naive_run src (cursor + 1) lookback ∧
      3 ≤ (find_naive_run src cursor lookback).length ∧
      (find_naive_run src cursor lookback).length + 2 ≤
        (find_naive_run src (cursor + 1) lookback).length := by
  unfold find_lookahead_run at h ⊢
  split_ifs at h ⊢ with h3 h5
  exact ⟨rfl, h3, h5⟩

/-! ## `write_run` normal forms -/

set_option maxRecDepth 10000 in
/-- Or-ing a multiple of 16 below 256 with a nibble is addition. -/
theorem lor_nibble : ∀ x, x < 256 → ∀ y, y < 16 → x % 16 = 0 → x ||| y = x + y := by decide

set_option maxRecDepth 10000 in
/-- Or-ing a fresh codon bit into a codon whose low `k + 1` bits are clear is
addition. -/
theorem lor_codon_bit : ∀ c, c < 256 → ∀ k, k < 8 → c % 2 ^ (k + 1) = 0 →
    c ||| 2 ^ k = c + 2 ^ k := by decide

/-- The 2-byte packet under the encoder's invariants. -/
theorem write_run_short (read_head : Nat) (r : Run) (h3 : 3 ≤ r.length)
    (h17 : r.length < 0x12) (hd : read_head - r.cursor - 1 < 4096) :
    write_run read_head r =
      ([(r.length - 2) * 16 + (read_head - r.cursor - 1) / 256,
        (read_head - r.cursor - 1) % 256],
       r.length) := by
  unfold write_run
  rw [if_neg (by omega)]
  have e3 : (read_head - r.cursor - 1) % 4294967296 = read_head - r.cursor - 1 :=
    Nat.mod_eq_of_lt (by omega)
  rw [e3]
  have e1 : (r.length % 256 + 254) % 256 = r.length - 2 := by omega
  rw [e1]
  have e2 : (r.length - 2) * 16 % 256 = (r.length - 2) * 16 := Nat.mod_eq_of_lt (by omega)
  rw [e2]
  have e4 : (read_head - r.cursor - 1) / 256 % 256 = (read_head - r.cursor - 1) / 256 :=
    Nat.mod_eq_of_lt (by omega)
  rw [e4]
  rw [lor_nibble _ (by omega) _ (by omega) (by omega)]

/-- The 3-byte packet under the encoder's invariants. -/
theorem write_run_long (read_head : Nat) (r : Run) (h18 : 0x12 ≤ r.length)
    (hd : read_head - r.cursor - 1 < 4096) :
    write_run read_head r =
      ([(read_head - r.cursor - 1) / 256, (read_head - r.cursor - 1) % 256,
        min r.length 273 - 0x12],
       min r.length 273) := by
  unfold write_run
  rw [if_pos h18]
  dsimp only
  have e3 : (read_head - r.cursor - 1) % 4294967296 = read_head - r.cursor - 1 :=
    Nat.mod_eq_of_lt (by omega)
  rw [e3]
  have e4 : (read_head - r.cursor - 1) / 256 % 256 = (read_head - r.cursor - 1) / 256 :=
    Nat.mod_eq_of_lt (by omega)
  rw [e4]
  have e5 : (min r.length (0xff + 0x12) - 0x12) % 256 = min r.length 273 - 0x12 :=
    Nat.mod_eq_of_lt (by omega)
  rw [e5]

theorem write_run_consumed_pos (read_head : Nat) (r : Run) (h3 : 3 ≤ r.length) :
    1 ≤ (write_run read_head r).2 := by
  unfold write_run
  split_ifs <;> dsimp only <;> omega

theorem write_run_consumed_le (read_head : Nat) (r : Run) :
    (write_run read_head r).2 ≤ r.length := by
  unfold write_run
  split_ifs <;> dsimp only <;> omega

theorem write_run_consumed_ge (read_head : Nat) (r : Run) (h3 : 3 ≤ r.length) :
    3 ≤ (write_run read_head r).2 := by
  unfold write_run
  split_ifs <;> dsimp only <;> omega

/-! ## Basic facts about the inner packet loop -/

theorem encodePackets_read_head_le (src : List Nat) (level : CompressionLevel)
    (lookback : Nat) :
    ∀ fuel read_head cache codon packets,
      read_head ≤ (encodePackets src level lookback fuel read_head cache codon packets).read_head := by
  intro fuel
  induction fuel with
  | zero => intro rh cache codon packets; exact le_refl _
  | succ f ih =>
    intro rh cache codon packets
    rw [encodePackets.eq_def]
    dsimp only
    split
    · exact le_trans (Nat.le_add_right _ _) (ih _ _ _ _)
    · split
      · exact le_refl _
      · exact le_trans (Nat.le_add_right _ 1) (ih _ _ _ _)

/-- With at least one packet slot left and input remaining, the group strictly
advances the read head (so the outer loop terminates). -/
theorem encodePackets_read_head_lt (src : List Nat) (level : CompressionLevel)
    (lookback : Nat) (fuel read_head : Nat) (cache : Option Run) (codon : Nat)
    (packets : List Nat) (hfuel : 1 ≤ fuel) (hrh : read_head < src.length) :
    read_head < (encodePackets src level lookback fuel read_head cache codon packets).read_head := by
  obtain ⟨f, rfl⟩ : ∃ f, fuel = f + 1 := ⟨fuel - 1, by omega⟩
  rw [encodePackets.eq_def]
  dsimp only
  split
  case isTrue hcond =>
    have h1 := write_run_consumed_pos read_head _ hcond.1
    calc read_head < read_head + (write_run read_head _).2 := by omega
      _ ≤ _ := encodePackets_read_head_le src level lookback f _ _ _ _
  case isFalse =>
    split
    case isTrue hend => omega
    case isFalse =>
      calc read_head < read_head + 1 := by omega
        _ ≤ _ := encodePackets_read_head_le src level lookback f _ _ _ _

/-! ## The decoder's copy loop -/

theorem copyRun_zero (dest : List Nat) (rb dp : Nat) : copyRun dest rb dp 0 = some (dest, dp) :=
  rfl

theorem copyRun_succ (dest : List Nat) (rb dp k : Nat) :
    copyRun dest rb dp (k + 1) =
      if rb < dest.length ∧ dp < dest.length then
        copyRun (dest.set dp (dest.getD rb 0)) (rb + 1) (dp + 1) k
      else none := rfl

/-- Correctness of the per-byte copy when the destination prefix agrees with
`src` and the run really matches: the copy succeeds, extends the agreeing
prefix by `n` bytes and leaves everything at or above `dest_pos + n`
untouched.  Self-overlap is fine because the prefix invariant is re-established
after every single byte. -/
theorem copyRun_spec (src : List Nat) :
    ∀ n (dest : List Nat) (rb dp : Nat),
      rb < dp → dp + n ≤ dest.length →
      AgreesBelow src dest dp →
      (∀ i, i < n → src.getD (rb + i) 0 = src.getD (dp + i) 0) →
      ∃ dest', copyRun dest rb dp n = some (dest', dp + n) ∧
        dest'.length = dest.length ∧ AgreesBelow src dest' (dp + n) ∧
        ∀ i, dp + n ≤ i → dest'.getD i 0 = dest.getD i 0 := by
  intro n
  induction n with
  | zero =>
    intro dest rb dp _ _ h3 _
    exact ⟨dest, rfl, rfl, h3, fun i _ => rfl⟩
  | succ k ih =>
    intro dest rb dp h1 h2 h3 h4
    have hrb : rb < dest.length := by omega
    have hdp : dp < dest.length := by omega
    rw [copyRun_succ, if_pos ⟨hrb, hdp⟩]
    have hval : dest.getD rb 0 = src.getD dp 0 := by
      have := h4 0 (by omega)
      simpa using (h3 rb h1).trans this
    have h3' : AgreesBelow src (dest.set dp (dest.getD rb 0)) (dp + 1) := by
      intro i hi
      rcases Nat.lt_or_ge i dp with hilt | hige
      · rw [getD_set_ne (by omega)]
        exact h3 i hilt
      · have : i = dp := by omega
        subst this
        rw [getD_set_self hdp, hval]
    have h4' : ∀ i, i < k → src.getD (rb + 1 + i) 0 = src.getD (dp + 1 + i) 0 := by
      intro i hi
      have := h4 (i + 1) (by omega)
      have e1 : rb + (i + 1) = rb + 1 + i := by omega
      have e2 : dp + (i + 1) = dp + 1 + i := by omega
      rwa [e1, e2] at this
    have hlen' : dp + 1 + k ≤ (dest.set dp (dest.getD rb 0)).length := by
      rw [List.length_set]
      omega
    obtain ⟨dest', heq, hlen, hagree, hframe⟩ :=
      ih (dest.set dp (dest.getD rb 0)) (rb + 1) (dp + 1) (by omega) hlen' h3' h4'
    refine ⟨dest', ?_, ?_, ?_, ?_⟩
    · have e : dp + 1 + k = dp + (k + 1) := by omega
      rw [heq, e]
    · rw [hlen, List.length_set]
    · have e : dp + 1 + k = dp + (k + 1) := by omega
      rwa [e] at hagree
    · intro i hi
      have hfr := hframe i (by omega)
      have hne : dp ≠ i := by omega
      rw [hfr, getD_set_ne hne]

/-- The run-length-encode effect: copying `n` bytes with `run_base` one before
`dest_pos` (raw distance field 0) repeats the byte at `run_base` `n` times,
because each step reads the byte freshly written by the previous step. -/
theorem copyRun_rle_aux (v : Nat) :
    ∀ n (dest : List Nat) (rb : Nat),
      rb + 1 + n ≤ dest.length → dest.getD rb 0 = v →
      ∃ dest', copyRun dest rb (rb + 1) n = some (dest', rb + 1 + n) ∧
        dest'.length = dest.length ∧
        (∀ i, i < n → dest'.getD (rb + 1 + i) 0 = v) ∧
        ∀ i, i ≤ rb → dest'.getD i 0 = dest.getD i 0 := by
  intro n
  induction n with
  | zero =>
    intro dest rb _ _
    exact ⟨dest, rfl, rfl, fun i hi => absurd hi (Nat.not_lt_zero i), fun i _ => rfl⟩
  | succ k ih =>
    intro dest rb hlen hv
    have hrb : rb < dest.length := by omega
    have hdp : rb + 1 < dest.length := by omega
    rw [copyRun_succ, if_pos ⟨hrb, hdp⟩]
    have hv1 : (dest.set (rb + 1) (dest.getD rb 0)).getD (rb + 1) 0 = v := by
      rw [getD_set_self hdp, hv]
    have hl2 : rb + 1 + 1 + k ≤ (dest.set (rb + 1) (dest.getD rb 0)).length := by
      rw [List.length_set]
      omega
    obtain ⟨dest', heq, hlen', hrep, hframe⟩ :=
      ih (dest.set (rb + 1) (dest.getD rb 0)) (rb + 1) hl2 hv1
    refine ⟨dest', ?_, ?_, ?_, ?_⟩
    · have e : rb + 1 + 1 + k = rb + 1 + (k + 1) := by omega
      rw [heq, e]
    · rw [hlen', List.length_set]
    · intro i hi
      match i with
      | 0 =>
        have hfr := hframe (rb + 1) (le_refl _)
        have e0 : rb + 1 + 0 = rb + 1 := by omega
        rw [e0, hfr, hv1]
      | j + 1 =>
        have := hrep j (by omega)
        have e : rb + 1 + 1 + j = rb + 1 + (j + 1) := by omega
        rwa [e] at this
    · intro i hi
      have hne : rb + 1 ≠ i := by omega
      rw [hframe i (by omega), getD_set_ne hne]

/-! ## Step equations for the decode loop -/

theorem decodeLoopF_exit (expected fuel : Nat) (input dest : List Nat) (dp ol cb : Nat)
    (h : ¬ dp < expected) :
    decodeLoopF expected (fuel + 1) input dest dp ol cb = some (dest, dp) := by
  simp only [decodeLoopF, if_neg h]

theorem decodeLoopF_refill_none (expected fuel : Nat) (dest : List Nat) (dp cb : Nat)
    (h : dp < expected) :
    decodeLoopF expected (fuel + 1) [] dest dp 0 cb = none := by
  simp only [decodeLoopF, if_pos h]
  rfl

theorem decodeLoopF_refill (expected fuel cb₀ : Nat) (input dest : List Nat) (dp cb : Nat)
    (h : dp < expected) :
    decodeLoopF expected (fuel + 1) (cb₀ :: input) dest dp 0 cb =
      decodeLoopF expected fuel input dest dp 8 (cb₀ % 256) := by
  simp only [decodeLoopF, if_pos h]
  rfl

theorem decodeLoopF_literal_nil (expected fuel : Nat) (dest : List Nat) (dp ol cb : Nat)
    (h : dp < expected) (hol : ¬ ol = 0) (hcb : 128 ≤ cb % 256) :
    decodeLoopF expected (fuel + 1) [] dest dp ol cb = none := by
  simp only [decodeLoopF, if_pos h, if_neg hol, if_pos hcb]

theorem decodeLoopF_literal (expected fuel b : Nat) (input dest : List Nat) (dp ol cb : Nat)
    (h : dp < expected) (hol : ¬ ol = 0) (hcb : 128 ≤ cb % 256) (hdp : dp < dest.length) :
    decodeLoopF expected (fuel + 1) (b :: input) dest dp ol cb =
      decodeLoopF expected fuel input (dest.set dp (b % 256)) (dp + 1) (ol - 1)
        (cb % 256 * 2 % 256) := by
  simp only [decodeLoopF, if_pos h, if_neg hol, if_pos hcb]
  rw [if_pos hdp]

theorem decodeLoopF_literal_oob (expected fuel b : Nat) (input dest : List Nat)
    (dp ol cb : Nat) (h : dp < expected) (hol : ¬ ol = 0) (hcb : 128 ≤ cb % 256)
    (hdp : ¬ dp < dest.length) :
    decodeLoopF expected (fuel + 1) (b :: input) dest dp ol cb = none := by
  simp only [decodeLoopF, if_pos h, if_neg hol, if_pos hcb]
  rw [if_neg hdp]

theorem decodeLoopF_backref_nil (expected fuel : Nat) (dest : List Nat) (dp ol cb : Nat)
    (h : dp < expected) (hol : ¬ ol = 0) (hcb : ¬ 128 ≤ cb % 256) :
    decodeLoopF expected (fuel + 1) [] dest dp ol cb = none := by
  simp only [decodeLoopF, if_pos h, if_neg hol, if_neg hcb]

theorem decodeLoopF_backref_one (expected fuel b1 : Nat) (dest : List Nat) (dp ol cb : Nat)
    (h : dp < expected) (hol : ¬ ol = 0) (hcb : ¬ 128 ≤ cb % 256) :
    decodeLoopF expected (fuel + 1) [b1] dest dp ol cb = none := by
  simp only [decodeLoopF, if_pos h, if_neg hol, if_neg hcb]

theorem decodeLoopF_backref_far (expected fuel b1 b2 : Nat) (input dest : List Nat)
    (dp ol cb : Nat) (h : dp < expected) (hol : ¬ ol = 0) (hcb : ¬ 128 ≤ cb % 256)
    (hdist : ¬ b1 % 16 * 256 + b2 % 256 + 1 ≤ dp) :
    decodeLoopF expected (fuel + 1) (b1 :: b2 :: input) dest dp ol cb = none := by
  simp only [decodeLoopF, if_pos h, if_neg hol, if_neg hcb]
  rw [if_neg hdist]

theorem decodeLoopF_backref3_nil (expected fuel b1 b2 : Nat) (dest : List Nat)
    (dp ol cb : Nat) (h : dp < expected) (hol : ¬ ol = 0) (hcb : ¬ 128 ≤ cb % 256)
    (hnib : b1 % 256 / 16 = 0) (hdist : b1 % 16 * 256 + b2 % 256 + 1 ≤ dp) :
    decodeLoopF expected (fuel + 1) [b1, b2] dest dp ol cb = none := by
  simp only [decodeLoopF, if_pos h, if_neg hol, if_neg hcb]
  rw [if_pos hdist, if_pos hnib]

theorem decodeLoopF_backref2 (expected fuel b1 b2 : Nat) (input dest : List Nat)
    (dp ol cb : Nat) (h : dp < expected) (hol : ¬ ol = 0) (hcb : ¬ 128 ≤ cb % 256)
    (hnib : ¬ b1 % 256 / 16 = 0) (hdist : b1 % 16 * 256 + b2 % 256 + 1 ≤ dp) :
    decodeLoopF expected (fuel + 1) (b1 :: b2 :: input) dest dp ol cb =
      match copyRun dest (dp - (b1 % 16 * 256 + b2 % 256 + 1)) dp (b1 % 256 / 16 + 2) with
      | some (dest', dp') =>
        decodeLoopF expected fuel input dest' dp' (ol - 1) (cb % 256 * 2 % 256)
      | none => none := by
  simp only [decodeLoopF, if_pos h, if_neg hol, if_neg hcb]
  rw [if_pos hdist, if_neg hnib]

theorem decodeLoopF_backref3 (expected fuel b1 b2 b3 : Nat) (input dest : List Nat)
    (dp ol cb : Nat) (h : dp < expected) (hol : ¬ ol = 0) (hcb : ¬ 128 ≤ cb % 256)
    (hnib : b1 % 256 / 16 = 0) (hdist : b1 % 16 * 256 + b2 % 256 + 1 ≤ dp) :
    decodeLoopF expected (fuel + 1) (b1 :: b2 :: b3 :: input) dest dp ol cb =
      match copyRun dest (dp - (b1 % 16 * 256 + b2 % 256 + 1)) dp (b3 % 256 + 0x12) with
      | some (dest', dp') =>
        decodeLoopF expected fuel input dest' dp' (ol - 1) (cb % 256 * 2 % 256)
      | none => none := by
  simp only [decodeLoopF, if_pos h, if_neg hol, if_neg hcb]
  rw [if_pos hdist, if_pos hnib]

/-- The fuel is irrelevant once it exceeds the input length: every loop
iteration consumes at least one input byte. -/
theorem decodeLoopF_congr (expected : Nat) :
    ∀ fuel fuel' (input dest : List Nat) (dp ol cb : Nat),
      input.length < fuel → input.length < fuel' →
      decodeLoopF expected fuel input dest dp ol cb =
        decodeLoopF expected fuel' input dest dp ol cb := by
  intro fuel
  induction fuel using Nat.strong_induction_on with
  | _ fuel ih =>
    intro fuel' input dest dp ol cb hf hf'
    obtain ⟨f, rfl⟩ : ∃ f, fuel = f + 1 := ⟨fuel - 1, by omega⟩
    obtain ⟨f', rfl⟩ : ∃ g, fuel' = g + 1 := ⟨fuel' - 1, by omega⟩
    by_cases h : dp < expected
    case neg =>
      rw [decodeLoopF_exit expected f input dest dp ol cb h,
        decodeLoopF_exit expected f' input dest dp ol cb h]
    case pos =>
      by_cases hol : ol = 0
      · subst hol
        cases input with
        | nil =>
          rw [decodeLoopF_refill_none expected f dest dp cb h,
            decodeLoopF_refill_none expected f' dest dp cb h]
        | cons c rest =>
          rw [decodeLoopF_refill expected f c rest dest dp cb h,
            decodeLoopF_refill expected f' c rest dest dp cb h]
          simp only [List.length_cons] at hf hf'
          exact ih f (by omega) f' rest dest dp 8 (c % 256) (by omega) (by omega)
      · by_cases hcb : 128 ≤ cb % 256
        · cases input with
          | nil =>
            rw [decodeLoopF_literal_nil expected f dest dp ol cb h hol hcb,
              decodeLoopF_literal_nil expected f' dest dp ol cb h hol hcb]
          | cons b rest =>
            simp only [List.length_cons] at hf hf'
            by_cases hdp : dp < dest.length
            · rw [decodeLoopF_literal expected f b rest dest dp ol cb h hol hcb hdp,
                decodeLoopF_literal expected f' b rest dest dp ol cb h hol hcb hdp]
              exact ih f (by omega) f' rest _ (dp + 1) (ol - 1) _ (by omega) (by omega)
            · rw [decodeLoopF_literal_oob expected f b rest dest dp ol cb h hol hcb hdp,
                decodeLoopF_literal_oob expected f' b rest dest dp ol cb h hol hcb hdp]
        · match input with
          | [] =>
            rw [decodeLoopF_backref_nil expected f dest dp ol cb h hol hcb,
              decodeLoopF_backref_nil expected f' dest dp ol cb h hol hcb]
          | [b1] =>
            rw [decodeLoopF_backref_one expected f b1 dest dp ol cb h hol hcb,
              decodeLoopF_backref_one expected f' b1 dest dp ol cb h hol hcb]
          | b1 :: b2 :: rest =>
            simp only [List.length_cons] at hf hf'
            by_cases hdist : b1 % 16 * 256 + b2 % 256 + 1 ≤ dp
            · by_cases hnib : b1 % 256 / 16 = 0
              · match rest with
                | [] =>
                  rw [decodeLoopF_backref3_nil expected f b1 b2 dest dp ol cb h hol hcb
                      hnib hdist,
                    decodeLoopF_backref3_nil expected f' b1 b2 dest dp ol cb h hol hcb
                      hnib hdist]
                | b3 :: rest2 =>
                  simp only [List.length_cons] at hf hf'
                  rw [decodeLoopF_backref3 expected f b1 b2 b3 rest2 dest dp ol cb h hol hcb
                      hnib hdist,
                    decodeLoopF_backref3 expected f' b1 b2 b3 rest2 dest dp ol cb h hol hcb
                      hnib hdist]
                  cases hcopy : copyRun dest (dp - (b1 % 16 * 256 + b2 % 256 + 1)) dp
                      (b3 % 256 + 0x12) with
                  | none => rfl
                  | some pr =>
                    obtain ⟨d1, p1⟩ := pr
                    exact ih f (by omega) f' rest2 d1 p1 (ol - 1) _ (by omega) (by omega)
              · rw [decodeLoopF_backref2 expected f b1 b2 rest dest dp ol cb h hol hcb
                    hnib hdist,
                  decodeLoopF_backref2 expected f' b1 b2 rest dest dp ol cb h hol hcb
                    hnib hdist]
                cases hcopy : copyRun dest (dp - (b1 % 16 * 256 + b2 % 256 + 1)) dp
                    (b1 % 256 / 16 + 2) with
                | none => rfl
                | some pr =>
                  obtain ⟨d1, p1⟩ := pr
                  exact ih f (by omega) f' rest d1 p1 (ol - 1) _ (by omega) (by omega)
            · rw [decodeLoopF_backref_far expected f b1 b2 rest dest dp ol cb h hol hcb hdist,
                decodeLoopF_backref_far expected f' b1 b2 rest dest dp ol cb h hol hcb hdist]

/-! Wrapper step equations, stated loop-to-loop. -/

theorem decodeLoop_exit (expected : Nat) (input dest : List Nat) (dp ol cb : Nat)
    (h : ¬ dp < expected) :
    decodeLoop expected input dest dp ol cb = some (dest, dp) :=
  decodeLoopF_exit expected input.length input dest dp ol cb h

theorem decodeLoop_refill_none (expected : Nat) (dest : List Nat) (dp cb : Nat)
    (h : dp < expected) :
    decodeLoop expected [] dest dp 0 cb = none :=
  decodeLoopF_refill_none expected 0 dest dp cb h

theorem decodeLoop_refill (expected cb₀ : Nat) (input dest : List Nat) (dp cb : Nat)
    (h : dp < expected) :
    decodeLoop expected (cb₀ :: input) dest dp 0 cb =
      decodeLoop expected input dest dp 8 (cb₀ % 256) := by
  show decodeLoopF expected ((cb₀ :: input).length + 1) _ _ _ _ _ = _
  rw [List.length_cons]
  exact decodeLoopF_refill expected (input.length + 1) cb₀ input dest dp cb h

/-- With an empty codon budget the pending code byte is never consulted
(the next step reads a fresh codon). -/
theorem decodeLoop_opsZero (expected : Nat) (input dest : List Nat) (dp cb : Nat) :
    decodeLoop expected input dest dp 0 cb = decodeLoop expected input dest dp 0 0 := by
  by_cases h : dp < expected
  · cases input with
    | nil => rw [decodeLoop_refill_none expected dest dp cb h,
        decodeLoop_refill_none expected dest dp 0 h]
    | cons c rest => rw [decodeLoop_refill expected c rest dest dp cb h,
        decodeLoop_refill expected c rest dest dp 0 h]
  · rw [decodeLoop_exit expected input dest dp 0 cb h,
      decodeLoop_exit expected input dest dp 0 0 h]

theorem decodeLoop_literal (expected b : Nat) (input dest : List Nat) (dp ol cb : Nat)
    (h : dp < expected) (hol : ¬ ol = 0) (hcb : 128 ≤ cb % 256) (hdp : dp < dest.length) :
    decodeLoop expected (b :: input) dest dp ol cb =
      decodeLoop expected input (dest.set dp (b % 256)) (dp + 1) (ol - 1)
        (cb % 256 * 2 % 256) := by
  show decodeLoopF expected ((b :: input).length + 1) _ _ _ _ _ = _
  rw [List.length_cons]
  exact decodeLoopF_literal expected (input.length + 1) b input dest dp ol cb h hol hcb hdp

theorem decodeLoop_backref2 (expected b1 b2 : Nat) (input dest : List Nat) (dp ol cb : Nat)
    (h : dp < expected) (hol : ¬ ol = 0) (hcb : ¬ 128 ≤ cb % 256)
    (hnib : ¬ b1 % 256 / 16 = 0) (hdist : b1 % 16 * 256 + b2 % 256 + 1 ≤ dp) :
    decodeLoop expected (b1 :: b2 :: input) dest dp ol cb =
      match copyRun dest (dp - (b1 % 16 * 256 + b2 % 256 + 1)) dp (b1 % 256 / 16 + 2) with
      | some (dest', dp') =>
        decodeLoop expected input dest' dp' (ol - 1) (cb % 256 * 2 % 256)
      | none => none := by
  show decodeLoopF expected ((b1 :: b2 :: input).length + 1) _ _ _ _ _ = _
  rw [List.length_cons, List.length_cons]
  rw [decodeLoopF_backref2 expected (input.length + 1 + 1) b1 b2 input dest dp ol cb
    h hol hcb hnib hdist]
  cases hcopy : copyRun dest (dp - (b1 % 16 * 256 + b2 % 256 + 1)) dp
      (b1 % 256 / 16 + 2) with
  | none => rfl
  | some pr =>
    obtain ⟨d1, p1⟩ := pr
    exact decodeLoopF_congr expected (input.length + 1 + 1) (input.length + 1) input d1 p1
      (ol - 1) (cb % 256 * 2 % 256) (by omega) (by omega)

theorem decodeLoop_backref3 (expected b1 b2 b3 : Nat) (input dest : List Nat)
    (dp ol cb : Nat) (h : dp < expected) (hol : ¬ ol = 0) (hcb : ¬ 128 ≤ cb % 256)
    (hnib : b1 % 256 / 16 = 0) (hdist : b1 % 16 * 256 + b2 % 256 + 1 ≤ dp) :
    decodeLoop expected (b1 :: b2 :: b3 :: input) dest dp ol cb =
      match copyRun dest (dp - (b1 % 16 * 256 + b2 % 256 + 1)) dp (b3 % 256 + 0x12) with
      | some (dest', dp') =>
        decodeLoop expected input dest' dp' (ol - 1) (cb % 256 * 2 % 256)
      | none => none := by
  show decodeLoopF expected ((b1 :: b2 :: b3 :: input).length + 1) _ _ _ _ _ = _
  rw [List.length_cons, List.length_cons, List.length_cons]
  rw [decodeLoopF_backref3 expected (input.length + 1 + 1 + 1) b1 b2 b3 input dest dp ol cb
    h hol hcb hnib hdist]
  cases hcopy : copyRun dest (dp - (b1 % 16 * 256 + b2 % 256 + 1)) dp (b3 % 256 + 0x12) with
  | none => rfl
  | some pr =>
    obtain ⟨d1, p1⟩ := pr
    exact decodeLoopF_congr expected (input.length + 1 + 1 + 1) (input.length + 1) input d1 p1
      (ol - 1) (cb % 256 * 2 % 256) (by omega) (by omega)

/-! ## Unfolding one slot of the packet loop -/

theorem encodePackets_succ (src : List Nat) (level : CompressionLevel)
    (lookback fuel read_head : Nat) (cache : Option Run) (codon : Nat)
    (packets : List Nat) :
    encodePackets src level lookback (fuel + 1) read_head cache codon packets =
      if 3 ≤ (slotChoice src level lookback read_head cache).2.length ∧
          (slotChoice src level lookback read_head cache).1 = false then
        encodePackets src level lookback fuel
          (read_head + (write_run read_head (slotChoice src level lookback read_head cache).2).2)
          (if (slotChoice src level lookback read_head cache).1 then
            some (slotChoice src level lookback read_head cache).2
          else none)
          codon
          (packets ++ (write_run read_head (slotChoice src level lookback read_head cache).2).1)
      else if src.length ≤ read_head then
        ⟨codon, packets, read_head,
          if (slotChoice src level lookback read_head cache).1 then
            some (slotChoice src level lookback read_head cache).2
          else none⟩
      else
        encodePackets src level lookback fuel (read_head + 1)
          (if (slotChoice src level lookback read_head cache).1 then
            some (slotChoice src level lookback read_head cache).2
          else none)
          (codon ||| 0x80 >>> (8 - (fuel + 1)))
          (packets ++ [src.getD read_head 0]) := by
  cases cache <;> cases level <;> rfl

/-! ## Arithmetic helpers for codon bits and code bytes -/

theorem shift_bit : ∀ f, f < 8 → 128 >>> (7 - f) = 2 ^ f := by decide

theorem pow_mul_lt_128 (delta f : Nat) (hd : delta < 2 ^ f) (hf : f ≤ 7) :
    delta * 2 ^ (7 - f) < 128 := by
  have h1 : delta * 2 ^ (7 - f) < 2 ^ f * 2 ^ (7 - f) :=
    mul_lt_mul_of_pos_right hd (pow_pos (by norm_num) _)
  have h2 : (2 : Nat) ^ f * 2 ^ (7 - f) = 128 := by
    rw [← pow_add]
    have he : f + (7 - f) = 7 := by omega
    rw [he]
    norm_num
  rw [h2] at h1
  exact h1

theorem pow_mul_lt_256 (delta f : Nat) (hd : delta < 2 ^ f) (hf : f ≤ 8) :
    delta * 2 ^ (8 - f) < 256 := by
  have h1 : delta * 2 ^ (8 - f) < 2 ^ f * 2 ^ (8 - f) :=
    mul_lt_mul_of_pos_right hd (pow_pos (by norm_num) _)
  have h2 : (2 : Nat) ^ f * 2 ^ (8 - f) = 256 := by
    rw [← pow_add]
    have he : f + (8 - f) = 8 := by omega
    rw [he]
    norm_num
  rw [h2] at h1
  exact h1

theorem pow_succ_le_256 (codon f : Nat) (h : codon + 2 ^ (f + 1) ≤ 256) :
    codon + 2 ^ f ≤ 256 := by
  rw [pow_succ] at h
  omega

theorem mod_pow_succ_zero (codon f : Nat) (h : codon % 2 ^ (f + 1) = 0) :
    codon % 2 ^ f = 0 :=
  Nat.mod_eq_zero_of_dvd
    (dvd_trans (pow_dvd_pow 2 (Nat.le_succ f)) (Nat.dvd_of_mod_eq_zero h))

/-- Doubling a code byte of the form `delta * 2 ^ (8 - (f + 1))`
(`delta < 2 ^ f`, i.e. the top bit clear) shifts it to position `f + 1`. -/
theorem codeByte_shift (delta f : Nat) (hd : delta < 2 ^ f) (hf : f ≤ 7) :
    delta * 2 ^ (8 - (f + 1)) % 256 * 2 % 256 = delta * 2 ^ (8 - f) := by
  have h78 : 8 - (f + 1) = 7 - f := by omega
  have hlt : delta * 2 ^ (8 - (f + 1)) < 128 := by rw [h78]; exact pow_mul_lt_128 delta f hd hf
  have hm1 : delta * 2 ^ (8 - (f + 1)) % 256 = delta * 2 ^ (8 - (f + 1)) :=
    Nat.mod_eq_of_lt (by omega)
  have hmul : delta * 2 ^ (8 - (f + 1)) * 2 = delta * 2 ^ (8 - f) := by
    rw [h78, mul_assoc, ← pow_succ]
    have he : 7 - f + 1 = 8 - f := by omega
    rw [he]
  rw [hm1, hmul]
  exact Nat.mod_eq_of_lt (pow_mul_lt_256 delta f hd (by omega))

/-- Fields of the first byte of a 2-byte back-reference packet. -/
theorem short_b1_facts (L D : Nat) (h3 : 3 ≤ L) (h17 : L < 18) (hD : D < 4096) :
    ((L - 2) * 16 + D / 256) % 256 = (L - 2) * 16 + D / 256 ∧
    ((L - 2) * 16 + D / 256) % 256 / 16 = L - 2 ∧
    ((L - 2) * 16 + D / 256) % 16 = D / 256 := by
  refine ⟨?_, ?_, ?_⟩ <;> omega

/-! ## The three slot outcomes, at specification level -/

/-- Writing a worthwhile run: the packet bytes decode right back to the run,
and the rest of the group carries on. -/
theorem encodePackets_run_step (src : List Nat) (level : CompressionLevel)
    (lookback : Nat) (hlb : lookback ≤ 4096) (f : Nat) (hf : f ≤ 7)
    (IH : ∀ read_head cache codon packets,
      CacheOk src lookback read_head cache → read_head ≤ src.length →
      codon + 2 ^ f ≤ 256 → codon % 2 ^ f = 0 →
      GroupSpec src lookback read_head codon f packets
        (encodePackets src level lookback f read_head cache codon packets))
    (read_head codon : Nat) (packets : List Nat) (r : Run)
    (h3 : 3 ≤ r.length) (hgood : GoodRun src lookback read_head r)
    (hcb : codon + 2 ^ (f + 1) ≤ 256) (hcm : codon % 2 ^ (f + 1) = 0) :
    GroupSpec src lookback read_head codon (f + 1) packets
      (encodePackets src level lookback f (read_head + (write_run read_head r).2) none codon
        (packets ++ (write_run read_head r).1)) := by
  obtain ⟨hcur, hwin, hrlen, hmatch⟩ := hgood
  have he3 : 3 ≤ (write_run read_head r).2 := write_run_consumed_ge read_head r h3
  have hele : (write_run read_head r).2 ≤ r.length := write_run_consumed_le read_head r
  have hrhlt : read_head < src.length := by omega
  have hD : read_head - r.cursor - 1 < 4096 := by omega
  by_cases h17 : r.length < 0x12
  case pos =>
    have hwr := write_run_short read_head r h3 h17 hD
    rw [hwr]
    dsimp only
    -- now the consumed length is `r.length` and the bytes are explicit
    have hrhe : read_head + r.length ≤ src.length := by omega
    obtain ⟨hg1, hg2, hg3, delta', newBytes', hdelta', hcodon', hpackets', hdecode'⟩ :=
      IH (read_head + r.length) none codon
        (packets ++ [(r.length - 2) * 16 + (read_head - r.cursor - 1) / 256,
          (read_head - r.cursor - 1) % 256])
        trivial hrhe (pow_succ_le_256 codon f hcb) (mod_pow_succ_zero codon f hcm)
    refine ⟨hg1, le_trans (by omega) hg2, hg3, delta',
      ((r.length - 2) * 16 + (read_head - r.cursor - 1) / 256) ::
        ((read_head - r.cursor - 1) % 256) :: newBytes', ?_, hcodon', ?_, ?_⟩
    · calc delta' < 2 ^ f := hdelta'
        _ ≤ 2 ^ (f + 1) := Nat.pow_le_pow_right (by norm_num) (by omega)
    · rw [hpackets']
      simp
    · intro dest rest hdlen hagree
      obtain ⟨hb1id, hb1div, hb1mod⟩ :=
        short_b1_facts r.length (read_head - r.cursor - 1) h3 h17 hD
      have hcbv : delta' * 2 ^ (8 - (f + 1)) < 128 := by
        have h78 : 8 - (f + 1) = 7 - f := by omega
        rw [h78]
        exact pow_mul_lt_128 delta' f hdelta' hf
      have hstep := decodeLoop_backref2 src.length
        ((r.length - 2) * 16 + (read_head - r.cursor - 1) / 256)
        ((read_head - r.cursor - 1) % 256) (newBytes' ++ rest) dest read_head (f + 1)
        (delta' * 2 ^ (8 - (f + 1))) hrhlt (by omega)
        (by rw [Nat.mod_eq_of_lt (by omega)]; omega)
        (by omega) (by omega)
      have hcur2 : read_head -
          (((r.length - 2) * 16 + (read_head - r.cursor - 1) / 256) % 16 * 256 +
            (read_head - r.cursor - 1) % 256 % 256 + 1) = r.cursor := by omega
      have hlen2 : ((r.length - 2) * 16 + (read_head - r.cursor - 1) / 256) % 256 / 16 + 2 =
          r.length := by omega
      rw [hcur2, hlen2] at hstep
      obtain ⟨dest₁, hcopy, hlen₁, hagree₁, hframe₁⟩ :=
        copyRun_spec src r.length dest r.cursor read_head hcur (by omega) hagree
          (fun i hi => hmatch i hi)
      rw [hcopy] at hstep
      dsimp only at hstep
      rw [codeByte_shift delta' f hdelta' hf, Nat.add_sub_cancel] at hstep
      obtain ⟨dest'', hlen'', hagree'', hframe'', heq''⟩ :=
        hdecode' dest₁ rest (by omega) hagree₁
      refine ⟨dest'', by omega, hagree'', ?_, ?_⟩
      · intro i hi
        rw [hframe'' i hi, hframe₁ i (by omega)]
      · have hl : (((r.length - 2) * 16 + (read_head - r.cursor - 1) / 256) ::
            ((read_head - r.cursor - 1) % 256) :: newBytes') ++ rest =
            ((r.length - 2) * 16 + (read_head - r.cursor - 1) / 256) ::
              ((read_head - r.cursor - 1) % 256) :: (newBytes' ++ rest) := by simp
        rw [hl, hstep, heq'']
  case neg =>
    have h18 : 0x12 ≤ r.length := by omega
    have hwr := write_run_long read_head r h18 hD
    rw [hwr]
    dsimp only
    have hemin3 : 3 ≤ min r.length 273 := by omega
    have hminle : min r.length 273 ≤ r.length := by omega
    have hrhe : read_head + min r.length 273 ≤ src.length := by omega
    obtain ⟨hg1, hg2, hg3, delta', newBytes', hdelta', hcodon', hpackets', hdecode'⟩ :=
      IH (read_head + min r.length 273) none codon
        (packets ++ [(read_head - r.cursor - 1) / 256, (read_head - r.cursor - 1) % 256,
          min r.length 273 - 0x12])
        trivial hrhe (pow_succ_le_256 codon f hcb) (mod_pow_succ_zero codon f hcm)
    refine ⟨hg1, le_trans (by omega) hg2, hg3, delta',
      ((read_head - r.cursor - 1) / 256) :: ((read_head - r.cursor - 1) % 256) ::
        (min r.length 273 - 0x12) :: newBytes', ?_, hcodon', ?_, ?_⟩
    · calc delta' < 2 ^ f := hdelta'
        _ ≤ 2 ^ (f + 1) := Nat.pow_le_pow_right (by norm_num) (by omega)
    · rw [hpackets']
      simp
    · intro dest rest hdlen hagree
      have hcbv : delta' * 2 ^ (8 - (f + 1)) < 128 := by
        have h78 : 8 - (f + 1) = 7 - f := by omega
        rw [h78]
        exact pow_mul_lt_128 delta' f hdelta' hf
      have hstep := decodeLoop_backref3 src.length
        ((read_head - r.cursor - 1) / 256) ((read_head - r.cursor - 1) % 256)
        (min r.length 273 - 0x12) (newBytes' ++ rest) dest read_head (f + 1)
        (delta' * 2 ^ (8 - (f + 1))) hrhlt (by omega)
        (by rw [Nat.mod_eq_of_lt (by omega)]; omega)
        (by omega) (by omega)
      have hcur2 : read_head -
          ((read_head - r.cursor - 1) / 256 % 16 * 256 +
            (read_head - r.cursor - 1) % 256 % 256 + 1) = r.cursor := by omega
      have hlen2 : (min r.length 273 - 0x12) % 256 + 0x12 = min r.length 273 := by omega
      rw [hcur2, hlen2] at hstep
      obtain ⟨dest₁, hcopy, hlen₁, hagree₁, hframe₁⟩ :=
        copyRun_spec src (min r.length 273) dest r.cursor read_head hcur (by omega) hagree
          (fun i hi => hmatch i (by omega))
      rw [hcopy] at hstep
      dsimp only at hstep
      rw [codeByte_shift delta' f hdelta' hf, Nat.add_sub_cancel] at hstep
      obtain ⟨dest'', hlen'', hagree'', hframe'', heq''⟩ :=
        hdecode' dest₁ rest (by omega) hagree₁
      refine ⟨dest'', by omega, hagree'', ?_, ?_⟩
      · intro i hi
        rw [hframe'' i hi, hframe₁ i (by omega)]
      · have hl : (((read_head - r.cursor - 1) / 256) :: ((read_head - r.cursor - 1) % 256) ::
            (min r.length 273 - 0x12) :: newBytes') ++ rest =
            ((read_head - r.cursor - 1) / 256) :: ((read_head - r.cursor - 1) % 256) ::
              (min r.length 273 - 0x12) :: (newBytes' ++ rest) := by simp
        rw [hl, hstep, heq'']

theorem ite_bool_false {α : Sort _} (a b : α) : (if (false : Bool) = true then a else b) = b :=
  rfl

theorem ite_bool_true {α : Sort _} (a b : α) : (if (true : Bool) = true then a else b) = a :=
  rfl

/-- Emitting a literal byte: the codon gains the slot's bit, the decoder copies
the byte through, and the rest of the group carries on (possibly with a
freshly cached lookahead run). -/
theorem encodePackets_lit_step (src : List Nat) (level : CompressionLevel)
    (lookback : Nat) (hsrc : ∀ b ∈ src, b < 256) (f : Nat) (hf : f ≤ 7)
    (IH : ∀ read_head cache codon packets,
      CacheOk src lookback read_head cache → read_head ≤ src.length →
      codon + 2 ^ f ≤ 256 → codon % 2 ^ f = 0 →
      GroupSpec src lookback read_head codon f packets
        (encodePackets src level lookback f read_head cache codon packets))
    (read_head codon : Nat) (packets : List Nat) (cache' : Option Run)
    (hcache' : CacheOk src lookback (read_head + 1) cache')
    (hrh : read_head < src.length)
    (hcb : codon + 2 ^ (f + 1) ≤ 256) (hcm : codon % 2 ^ (f + 1) = 0) :
    GroupSpec src lookback read_head codon (f + 1) packets
      (encodePackets src level lookback f (read_head + 1) cache'
        (codon ||| 0x80 >>> (8 - (f + 1))) (packets ++ [src.getD read_head 0])) := by
  have hbit : (0x80 : Nat) >>> (8 - (f + 1)) = 2 ^ f := by
    have h78 : 8 - (f + 1) = 7 - f := by omega
    rw [h78]
    exact shift_bit f (by omega)
  have hpow1 : 1 ≤ 2 ^ (f + 1) := Nat.one_le_two_pow
  have hcodon256 : codon < 256 := by omega
  have hlor : codon ||| 2 ^ f = codon + 2 ^ f :=
    lor_codon_bit codon hcodon256 f (by omega) hcm
  rw [hbit, hlor]
  have hcb' : codon + 2 ^ f + 2 ^ f ≤ 256 := by rw [pow_succ] at hcb; omega
  have hcm' : (codon + 2 ^ f) % 2 ^ f = 0 := by
    have h1 : 2 ^ f ∣ codon :=
      dvd_trans (pow_dvd_pow 2 (Nat.le_succ f)) (Nat.dvd_of_mod_eq_zero hcm)
    exact Nat.mod_eq_zero_of_dvd (Nat.dvd_add h1 dvd_rfl)
  obtain ⟨hg1, hg2, hg3, delta', newBytes', hdelta', hcodon', hpackets', hdecode'⟩ :=
    IH (read_head + 1) cache' (codon + 2 ^ f) (packets ++ [src.getD read_head 0])
      hcache' (by omega) hcb' hcm'
  refine ⟨hg1, le_trans (by omega) hg2, hg3, 2 ^ f + delta',
    src.getD read_head 0 :: newBytes', ?_, ?_, ?_, ?_⟩
  · rw [pow_succ]; omega
  · rw [hcodon']; omega
  · rw [hpackets']; simp
  · intro dest rest hdlen hagree
    have hb : src.getD read_head 0 < 256 := getD_lt_of_mem_lt hrh hsrc
    have hcbval : (2 ^ f + delta') * 2 ^ (8 - (f + 1)) =
        128 + delta' * 2 ^ (8 - (f + 1)) := by
      have h78 : 8 - (f + 1) = 7 - f := by omega
      rw [Nat.add_mul]
      congr 1
      rw [h78, ← pow_add]
      have he : f + (7 - f) = 7 := by omega
      rw [he]
      norm_num
    have hx : delta' * 2 ^ (8 - (f + 1)) < 128 := by
      have h78 : 8 - (f + 1) = 7 - f := by omega
      rw [h78]
      exact pow_mul_lt_128 delta' f hdelta' hf
    have hmod128 : (128 + delta' * 2 ^ (8 - (f + 1))) % 256 =
        128 + delta' * 2 ^ (8 - (f + 1)) := Nat.mod_eq_of_lt (by omega)
    have hstep := decodeLoop_literal src.length (src.getD read_head 0) (newBytes' ++ rest)
      dest read_head (f + 1) ((2 ^ f + delta') * 2 ^ (8 - (f + 1))) hrh (by omega)
      (by rw [hcbval, hmod128]; omega) (by omega)
    have hnext : (2 ^ f + delta') * 2 ^ (8 - (f + 1)) % 256 * 2 % 256 =
        delta' * 2 ^ (8 - f) := by
      rw [hcbval, hmod128]
      have h2x : (128 + delta' * 2 ^ (8 - (f + 1))) * 2 =
          256 + delta' * 2 ^ (8 - (f + 1)) * 2 := by ring
      rw [h2x, Nat.add_mod_left]
      have hmul : delta' * 2 ^ (8 - (f + 1)) * 2 = delta' * 2 ^ (8 - f) := by
        have h78 : 8 - (f + 1) = 7 - f := by omega
        rw [h78, mul_assoc, ← pow_succ]
        have he : 7 - f + 1 = 8 - f := by omega
        rw [he]
      rw [hmul]
      exact Nat.mod_eq_of_lt (pow_mul_lt_256 delta' f hdelta' (by omega))
    rw [hnext, Nat.add_sub_cancel] at hstep
    have hbm : src.getD read_head 0 % 256 = src.getD read_head 0 := Nat.mod_eq_of_lt hb
    rw [hbm] at hstep
    have hagree₁ : AgreesBelow src (dest.set read_head (src.getD read_head 0))
        (read_head + 1) := by
      intro i hi
      rcases Nat.lt_or_ge i read_head with hlt | hge
      · have hne : read_head ≠ i := by omega
        rw [getD_set_ne hne]
        exact hagree i hlt
      · have hieq : i = read_head := by omega
        subst hieq
        rw [getD_set_self (by omega)]
    obtain ⟨dest'', hlen'', hagree'', hframe'', heq''⟩ :=
      hdecode' (dest.set read_head (src.getD read_head 0)) rest
        (by rw [List.length_set]; omega) hagree₁
    refine ⟨dest'', ?_, hagree'', ?_, ?_⟩
    · rw [hlen'', List.length_set]
    · intro i hi
      have hne : read_head ≠ i := by omega
      rw [hframe'' i hi, getD_set_ne hne]
    · have hl : (src.getD read_head 0 :: newBytes') ++ rest =
          src.getD read_head 0 :: (newBytes' ++ rest) := by simp
      rw [hl, hstep, heq'']

/-- A group that stops (or never starts) at the end of the input trivially
satisfies the group specification. -/
theorem groupSpec_stop (src : List Nat) (lookback rh codon f : Nat) (packets : List Nat)
    (cache' : Option Run) (hc : CacheOk src lookback rh cache') (hrh : rh = src.length) :
    GroupSpec src lookback rh codon f packets ⟨codon, packets, rh, cache'⟩ := by
  refine ⟨le_of_eq hrh, le_refl rh, hc, 0, [], pow_pos (by norm_num) f, rfl,
    (List.append_nil packets).symm, ?_⟩
  intro dest rest hdlen hagree
  refine ⟨dest, rfl, hagree, fun i _ => rfl, ?_⟩
  show decodeLoop src.length ([] ++ rest) dest rh f (0 * 2 ^ (8 - f)) =
    decodeLoop src.length rest dest rh 0 0
  rw [List.nil_append]
  rw [decodeLoop_exit src.length rest dest rh f (0 * 2 ^ (8 - f)) (by omega)]
  rw [decodeLoop_exit src.length rest dest rh 0 0 (by omega)]

/-- The central invariant of the inner packet loop: every (partial) group
satisfies `GroupSpec`. -/
theorem encodePackets_spec (src : List Nat) (level : CompressionLevel) (lookback : Nat)
    (hlb : lookback ≤ 4096) (hsrc : ∀ b ∈ src, b < 256) :
    ∀ f, f ≤ 8 → ∀ read_head cache codon packets,
      CacheOk src lookback read_head cache → read_head ≤ src.length →
      codon + 2 ^ f ≤ 256 → codon % 2 ^ f = 0 →
      GroupSpec src lookback read_head codon f packets
        (encodePackets src level lookback f read_head cache codon packets) := by
  intro f
  induction f with
  | zero =>
    intro _ rh cache codon packets hcache hrh hcb hcm
    refine ⟨hrh, le_refl _, hcache, 0, [], by norm_num, rfl,
      (List.append_nil packets).symm, ?_⟩
    intro dest rest hdlen hagree
    refine ⟨dest, rfl, hagree, fun i _ => rfl, ?_⟩
    show decodeLoop src.length ([] ++ rest) dest rh 0 (0 * 2 ^ (8 - 0)) =
      decodeLoop src.length rest dest rh 0 0
    rw [List.nil_append, Nat.zero_mul]
  | succ f ihf =>
    intro hf8 rh cache codon packets hcache hrh hcb hcm
    have hf7 : f ≤ 7 := by omega
    have IH : ∀ read_head cache codon packets,
        CacheOk src lookback read_head cache → read_head ≤ src.length →
        codon + 2 ^ f ≤ 256 → codon % 2 ^ f = 0 →
        GroupSpec src lookback read_head codon f packets
          (encodePackets src level lookback f read_head cache codon packets) :=
      fun a b c d h1 h2 h3 h4 => ihf (by omega) a b c d h1 h2 h3 h4
    rw [encodePackets_succ]
    cases cache with
    | some c =>
      obtain ⟨hc3, hcgood⟩ := hcache
      have hslot : slotChoice src level lookback rh (some c) = (false, c) := rfl
      rw [hslot]
      dsimp only
      rw [if_pos ⟨hc3, rfl⟩]
      exact encodePackets_run_step src level lookback hlb f hf7 IH rh codon packets c
        hc3 hcgood hcb hcm
    | none =>
      cases level with
      | Naive q =>
        have hslot : slotChoice src (CompressionLevel.Naive q) lookback rh none =
            (false, find_naive_run src rh lookback) := rfl
        rw [hslot]
        dsimp only
        by_cases h3 : 3 ≤ (find_naive_run src rh lookback).length
        · rw [if_pos ⟨h3, rfl⟩]
          exact encodePackets_run_step src _ lookback hlb f hf7 IH rh codon packets _
            h3 (find_naive_run_good src rh lookback (by omega)) hcb hcm
        · rw [if_neg (fun hx => h3 hx.1)]
          by_cases hend : src.length ≤ rh
          · rw [if_pos hend, ite_bool_false]
            exact groupSpec_stop src lookback rh codon (f + 1) packets none trivial
              (by omega)
          · rw [if_neg hend]
            exact encodePackets_lit_step src _ lookback hsrc f hf7 IH rh codon packets
              none trivial (by omega) hcb hcm
      | Lookahead q =>
        have hslot : slotChoice src (CompressionLevel.Lookahead q) lookback rh none =
            find_lookahead_run src rh lookback := rfl
        rw [hslot]
        cases hhit : (find_lookahead_run src rh lookback).1 with
        | false =>
          have hbest := find_lookahead_run_false src rh lookback hhit
          rw [hbest]
          by_cases h3 : 3 ≤ (find_naive_run src rh lookback).length
          · rw [if_pos ⟨h3, rfl⟩]
            exact encodePackets_run_step src _ lookback hlb f hf7 IH rh codon packets _
              h3 (find_naive_run_good src rh lookback (by omega)) hcb hcm
          · rw [if_neg (fun hx => h3 hx.1)]
            by_cases hend : src.length ≤ rh
            · rw [if_pos hend, ite_bool_false]
              exact groupSpec_stop src lookback rh codon (f + 1) packets none trivial
                (by omega)
            · rw [if_neg hend]
              exact encodePackets_lit_step src _ lookback hsrc f hf7 IH rh codon packets
                none trivial (by omega) hcb hcm
        | true =>
          obtain ⟨hbest, h3n, h5⟩ := find_lookahead_run_true src rh lookback hhit
          rw [hbest]
          rw [if_neg (fun hx => absurd hx.2 (by simp))]
          have hrhlt : rh < src.length := by
            by_contra hge
            have h0 := find_naive_run_length_zero src rh lookback (by omega)
            omega
          rw [if_neg (by omega : ¬ src.length ≤ rh), ite_bool_true]
          exact encodePackets_lit_step src _ lookback hsrc f hf7 IH rh codon packets
            (some (find_naive_run src (rh + 1) lookback))
            ⟨by omega, find_naive_run_good src (rh + 1) lookback (by omega)⟩
            hrhlt hcb hcm

/-! ## The outer loop -/

/-- The outer compression loop: the group-end trace is strictly increasing and
bounded by the input length, the progress trace is exactly its filtering by
the send condition, and — given enough fuel — decoding the emitted stream from
any agreeing destination reconstructs `src` completely and leaves the bytes
at or above `src.length` untouched. -/
theorem compressLoopF_spec (src : List Nat) (level : CompressionLevel) (lookback : Nat)
    (hlb : lookback ≤ 4096) (hsrc : ∀ b ∈ src, b < 256) :
    ∀ fuel read_head cache,
      src.length - read_head ≤ fuel →
      CacheOk src lookback read_head cache → read_head ≤ src.length →
      (∀ x ∈ (compressLoopF src level lookback fuel read_head cache).2.2,
        read_head < x ∧ x ≤ src.length) ∧
      List.Pairwise (· < ·) (compressLoopF src level lookback fuel read_head cache).2.2 ∧
      (compressLoopF src level lookback fuel read_head cache).2.1 =
        (compressLoopF src level lookback fuel read_head cache).2.2.filter
          (fun x => decide (x % 10 = 0 ∨ x = src.length - 1)) ∧
      ∀ dest : List Nat, src.length ≤ dest.length → AgreesBelow src dest read_head →
        ∃ dest',
          decodeLoop src.length (compressLoopF src level lookback fuel read_head cache).1
              dest read_head 0 0 = some (dest', src.length) ∧
          dest'.length = dest.length ∧ AgreesBelow src dest' src.length ∧
          ∀ i, src.length ≤ i → dest'.getD i 0 = dest.getD i 0 := by
  intro fuel
  induction fuel with
  | zero =>
    intro rh cache hfuel hcache hrh
    have hrheq : rh = src.length := by omega
    refine ⟨fun x hx => absurd hx (List.not_mem_nil x), List.Pairwise.nil, rfl, ?_⟩
    intro dest hdlen hagree
    refine ⟨dest, ?_, rfl, by rw [← hrheq]; exact hagree, fun i _ => rfl⟩
    show decodeLoop src.length [] dest rh 0 0 = some (dest, src.length)
    rw [decodeLoop_exit src.length [] dest rh 0 0 (by omega), hrheq]
  | succ f ih =>
    intro rh cache hfuel hcache hrh
    by_cases hlt : rh < src.length
    case neg =>
      have hrheq : rh = src.length := by omega
      have hstop : compressLoopF src level lookback (f + 1) rh cache = ([], [], []) := by
        simp only [compressLoopF, if_neg hlt]
      rw [hstop]
      refine ⟨fun x hx => absurd hx (List.not_mem_nil x), List.Pairwise.nil, rfl, ?_⟩
      intro dest hdlen hagree
      refine ⟨dest, ?_, rfl, by rw [← hrheq]; exact hagree, fun i _ => rfl⟩
      show decodeLoop src.length [] dest rh 0 0 = some (dest, src.length)
      rw [decodeLoop_exit src.length [] dest rh 0 0 (by omega), hrheq]
    case pos =>
      rcases hgeq : encodePackets src level lookback 8 rh cache 0 [] with
        ⟨codon, packets, rh', cache'⟩
      have hstep : compressLoopF src level lookback (f + 1) rh cache =
          (codon :: packets ++ (compressLoopF src level lookback f rh' cache').1,
           (if rh' % 10 = 0 ∨ rh' = src.length - 1 then
              rh' :: (compressLoopF src level lookback f rh' cache').2.1
            else (compressLoopF src level lookback f rh' cache').2.1),
           rh' :: (compressLoopF src level lookback f rh' cache').2.2) := by
        simp only [compressLoopF, if_pos hlt, hgeq]
      have hspec := encodePackets_spec src level lookback hlb hsrc 8 (le_refl 8)
        rh cache 0 [] hcache hrh (by norm_num) (by norm_num)
      rw [hgeq] at hspec
      obtain ⟨hg1, hg2, hg3, delta, newBytes, hdelta, hcodon, hpackets, hdecode⟩ := hspec
      have hg1' : rh' ≤ src.length := hg1
      have hg3' : CacheOk src lookback rh' cache' := hg3
      have hstrict := encodePackets_read_head_lt src level lookback 8 rh cache 0 []
        (by norm_num) hlt
      rw [hgeq] at hstrict
      have hstrict' : rh < rh' := hstrict
      have hcodon' : codon = delta := by simpa using hcodon
      have hpackets' : packets = newBytes := by simpa using hpackets
      have hdelta' : delta < 256 := by simpa using hdelta
      obtain ⟨hmem, hpw, hfilter, hdec⟩ := ih rh' cache' (by omega) hg3' hg1'
      rw [hstep]
      refine ⟨?_, ?_, ?_, ?_⟩
      · intro x hx
        rcases List.mem_cons.mp hx with hx0 | hxr
        · subst hx0
          exact ⟨hstrict', hg1'⟩
        · have := hmem x hxr
          exact ⟨by omega, this.2⟩
      · exact List.pairwise_cons.mpr ⟨fun y hy => (hmem y hy).1, hpw⟩
      · rw [List.filter_cons]
        by_cases hp : rh' % 10 = 0 ∨ rh' = src.length - 1
        · rw [if_pos hp, if_pos (by simpa using hp), hfilter]
        · rw [if_neg hp, if_neg (by simpa using hp), hfilter]
      · intro dest hdlen hagree
        have hdeq := hdecode dest (compressLoopF src level lookback f rh' cache').1
          hdlen hagree
        obtain ⟨dest₁, hlen₁, hagree₁, hframe₁, heq₁⟩ := hdeq
        have hagree₁' : AgreesBelow src dest₁ rh' := hagree₁
        obtain ⟨dest₂, heq₂, hlen₂, hagree₂, hframe₂⟩ :=
          hdec dest₁ (by omega) hagree₁'
        refine ⟨dest₂, ?_, by omega, hagree₂, ?_⟩
        · show decodeLoop src.length
            (codon :: packets ++ (compressLoopF src level lookback f rh' cache').1)
              dest rh 0 0 = some (dest₂, src.length)
          have hrefill := decodeLoop_refill src.length codon
            (packets ++ (compressLoopF src level lookback f rh' cache').1) dest rh 0 hlt
          refine Eq.trans hrefill ?_
          have hcm : codon % 256 = delta := by
            rw [hcodon']
            exact Nat.mod_eq_of_lt hdelta'
          rw [hcm, hpackets']
          have e0 : delta * 2 ^ (8 - 8) = delta := by norm_num
          rw [e0] at heq₁
          rw [heq₁]
          exact heq₂
        · intro i hi
          rw [hframe₂ i hi, hframe₁ i (by omega)]

/-! ## Header glue -/

theorem parse_cons (b0 b1 b2 b3 : Nat) (rest : List Nat) :
    Yaz0Header.parse (0x59 :: 0x61 :: 0x7a :: 0x30 :: b0 :: b1 :: b2 :: b3 :: rest) =
      .ok (⟨(b0 % 256) * 16777216 + (b1 % 256) * 65536 + (b2 % 256) * 256 + b3 % 256⟩,
        16) := by
  rfl

theorem header_write_length (h : Yaz0Header) : (Yaz0Header.write h).length = 16 := by
  simp [Yaz0Header.write, yaz0Magic]

/-- Writing a header (for a representable size) and parsing it back — with any
payload appended — recovers the size and leaves the reader at byte 16. -/
theorem parse_write_append (n : Nat) (hn : n < 4294967296) (tail : List Nat) :
    Yaz0Header.parse (Yaz0Header.write ⟨n⟩ ++ tail) = .ok (⟨n⟩, 16) ∧
    (Yaz0Header.write ⟨n⟩ ++ tail).drop 16 = tail := by
  constructor
  · show Yaz0Header.parse
      ((yaz0Magic ++ [n % 4294967296 / 16777216 % 256, n % 4294967296 / 65536 % 256,
        n % 4294967296 / 256 % 256, n % 4294967296 % 256] ++ List.replicate 8 0) ++ tail) =
      .ok (⟨n⟩, 16)
    rw [Nat.mod_eq_of_lt hn]
    simp only [yaz0Magic, List.cons_append, List.nil_append, List.append_assoc]
    rw [parse_cons]
    have hval : n / 16777216 % 256 % 256 * 16777216 + n / 65536 % 256 % 256 * 65536 +
        n / 256 % 256 % 256 * 256 + n % 256 % 256 = n := by omega
    rw [hval]
  · exact List.drop_left' (header_write_length ⟨n⟩)

/-- Two lists agreeing (via `getD`) below their common length are equal. -/
theorem list_eq_of_agrees (src dest : List Nat) (hlen : dest.length = src.length)
    (h : AgreesBelow src dest src.length) : dest = src := by
  apply List.ext_getElem hlen
  intro i h1 h2
  have hi := h i (by omega)
  rw [List.getD_eq_getElem?_getD, List.getD_eq_getElem?_getD,
    List.getElem?_eq_getElem h1, List.getElem?_eq_getElem h2] at hi
  simpa using hi

theorem exists_cons_of_le_length {l : List Nat} {k : Nat} (h : k + 1 ≤ l.length) :
    ∃ a t, l = a :: t ∧ k ≤ t.length := by
  cases l with
  | nil => simp at h
  | cons a t => exact ⟨a, t, rfl, by simpa using h⟩

/-! ## The claims -/

/-- **C6** (confirmed).  With the full 16-byte header available, `parse` fails
with `InvalidMagic` exactly when the first four bytes differ from `"Yaz0"`;
when they agree it succeeds (so no other failure can be reported). -/
theorem c6_invalid_magic_iff (file : List Nat) (hb : ∀ b ∈ file, b < 256)
    (hlen : 16 ≤ file.length) :
    (Yaz0Header.parse file = .error .InvalidMagic ↔ file.take 4 ≠ yaz0Magic) ∧
    (file.take 4 = yaz0Magic → ∃ n, Yaz0Header.parse file = .ok (⟨n⟩, 16)) := by
  obtain ⟨m0, f1, rfl, h1⟩ := exists_cons_of_le_length (show 15 + 1 ≤ file.length by omega)
  obtain ⟨m1, f2, rfl, h2⟩ := exists_cons_of_le_length (show 14 + 1 ≤ f1.length by omega)
  obtain ⟨m2, f3, rfl, h3⟩ := exists_cons_of_le_length (show 13 + 1 ≤ f2.length by omega)
  obtain ⟨m3, f4, rfl, h4⟩ := exists_cons_of_le_length (show 12 + 1 ≤ f3.length by omega)
  obtain ⟨b0, f5, rfl, h5⟩ := exists_cons_of_le_length (show 11 + 1 ≤ f4.length by omega)
  obtain ⟨b1, f6, rfl, h6⟩ := exists_cons_of_le_length (show 10 + 1 ≤ f5.length by omega)
  obtain ⟨b2, f7, rfl, h7⟩ := exists_cons_of_le_length (show 9 + 1 ≤ f6.length by omega)
  obtain ⟨b3, f8, rfl, h8⟩ := exists_cons_of_le_length (show 8 + 1 ≤ f7.length by omega)
  have hm0 : m0 % 256 = m0 := Nat.mod_eq_of_lt (hb m0 (by simp))
  have hm1 : m1 % 256 = m1 := Nat.mod_eq_of_lt (hb m1 (by simp))
  have hm2 : m2 % 256 = m2 := Nat.mod_eq_of_lt (hb m2 (by simp))
  have hm3 : m3 % 256 = m3 := Nat.mod_eq_of_lt (hb m3 (by simp))
  have htake : (m0 :: m1 :: m2 :: m3 :: b0 :: b1 :: b2 :: b3 :: f8).take 4 =
      [m0, m1, m2, m3] := rfl
  rw [htake]
  unfold Yaz0Header.parse
  dsimp only
  rw [hm0, hm1, hm2, hm3]
  by_cases hmg : [m0, m1, m2, m3] = yaz0Magic
  · rw [if_neg (by simpa using hmg)]
    constructor
    · constructor
      · intro hcontra
        simp at hcontra
      · intro hcontra
        exact absurd hmg hcontra
    · intro _
      exact ⟨(b0 % 256) * 16777216 + (b1 % 256) * 65536 + (b2 % 256) * 256 + b3 % 256, rfl⟩
  · rw [if_pos (by simpa using hmg)]
    constructor
    · exact ⟨fun _ => hmg, fun _ => rfl⟩
    · intro hcontra
      exact absurd hcontra hmg

/-- **C6 — witness**: the bad-magic test vector of the repository (`"Foo0"`,
then a size and eight zero bytes). -/
theorem c6_invalid_magic_iff_witness :
    (Yaz0Header.parse [0x46, 0x6f, 0x6f, 0x30, 0x00, 0xcc, 0x07, 0xc9,
        0, 0, 0, 0, 0, 0, 0, 0] = .error .InvalidMagic ↔
      [0x46, 0x6f, 0x6f, 0x30, 0x00, 0xcc, 0x07, 0xc9,
        0, 0, 0, 0, 0, 0, 0, 0].take 4 ≠ yaz0Magic) ∧
    ([0x46, 0x6f, 0x6f, 0x30, 0x00, 0xcc, 0x07, 0xc9,
        0, 0, 0, 0, 0, 0, 0, 0].take 4 = yaz0Magic →
      ∃ n, Yaz0Header.parse [0x46, 0x6f, 0x6f, 0x30, 0x00, 0xcc, 0x07, 0xc9,
        0, 0, 0, 0, 0, 0, 0, 0] = .ok (⟨n⟩, 16)) :=
  c6_invalid_magic_iff _ (by decide) (by decide)

/-- **C7** (confirmed).  For every `n < 2^32`, writing a header with expected
size `n` and parsing it back succeeds with exactly `n`; the written bytes are
exactly magic, the four big-endian digits of `n` and eight zero bytes. -/
theorem c7_header_write_parse (n : Nat) (hn : n < 4294967296) :
    Yaz0Header.parse (Yaz0Header.write ⟨n⟩) = .ok (⟨n⟩, 16) ∧
    Yaz0Header.write ⟨n⟩ =
      yaz0Magic ++ [n / 16777216, n / 65536 % 256, n / 256 % 256, n % 256] ++
        List.replicate 8 0 ∧
    (Yaz0Header.write ⟨n⟩).length = 16 := by
  refine ⟨?_, ?_, header_write_length ⟨n⟩⟩
  · have h := (parse_write_append n hn []).1
    rwa [List.append_nil] at h
  · show yaz0Magic ++ [n % 4294967296 / 16777216 % 256, n % 4294967296 / 65536 % 256,
      n % 4294967296 / 256 % 256, n % 4294967296 % 256] ++ List.replicate 8 0 = _
    rw [Nat.mod_eq_of_lt hn]
    have e0 : n / 16777216 % 256 = n / 16777216 := by omega
    rw [e0]

/-- **C7 — witness** at the size used by the repository's own test
(`13371337`). -/
theorem c7_header_write_parse_witness :
    13371337 < 4294967296 ∧
    Yaz0Header.parse (Yaz0Header.write ⟨13371337⟩) = .ok (⟨13371337⟩, 16) :=
  ⟨by norm_num, (c7_header_write_parse 13371337 (by norm_num)).1⟩

/-- **C2** (code bug).  The effective window is `4096 / (quality / 10)` (the
float floor of `quality / 10` equals integer division on the documented range),
and for every quality in `[1, 9]` the divisor is zero, so the Rust code panics
with an integer division by zero — modelled as `none` — although the field's
own documentation says "Set between 1 and 10".  Only quality 10 avoids the
panic. -/
theorem c2_window_divisor_zero :
    compress_lookaround [0, 1, 2] (CompressionLevel.Naive 1) = none ∧
    compress_lookaround [0, 1, 2] (CompressionLevel.Naive 9) = none ∧
    compress_lookaround [0, 1, 2] (CompressionLevel.Lookahead 1) = none ∧
    compress_lookaround [0, 1, 2] (CompressionLevel.Lookahead 9) = none ∧
    compress_lookaround [0, 1, 2] (CompressionLevel.Naive 10) ≠ none ∧
    compress_lookaround [0, 1, 2] (CompressionLevel.Lookahead 10) ≠ none := by
  refine ⟨rfl, rfl, rfl, rfl, by decide, by decide⟩

/-- **C3 — counterexample**.  On `[1, 1, 1]` with cursor 2 the candidates at 0
and at 1 both have match length 1, yet `find_naive_run` returns the one at
`match_start = 1`: the claimed "earliest equal-length candidate wins" is false
(`swap_if_better` keeps the incumbent only under strict `>`, so ties go to the
newer candidate). -/
theorem c3_earliest_tie_counterexample :
    find_naive_run [1, 1, 1] 2 4096 = ⟨1, 1⟩ ∧
    matchLen [1, 1, 1] 0 2 = 1 ∧ matchLen [1, 1, 1] 1 2 = 1 ∧ (1 : Nat) ≠ 0 := by
  refine ⟨by decide, rfl, rfl, by decide⟩

/-- **C3** (amended).  When several candidates achieve the maximal match
length, the run returned by `find_naive_run` is the **latest** such candidate:
its start is in the window, its length is its match length and is maximal, and
every strictly later candidate is strictly shorter. -/
theorem c3_latest_tie_break (src : List Nat) (cursor lookback : Nat)
    (hc : 1 ≤ cursor) (hl : 1 ≤ lookback) :
    cursor - lookback ≤ (find_naive_run src cursor lookback).cursor ∧
    (find_naive_run src cursor lookback).cursor < cursor ∧
    (find_naive_run src cursor lookback).length =
      matchLen src (find_naive_run src cursor lookback).cursor cursor ∧
    (∀ sh, cursor - lookback ≤ sh → sh < cursor →
      matchLen src sh cursor ≤ (find_naive_run src cursor lookback).length) ∧
    (∀ sh, (find_naive_run src cursor lookback).cursor < sh → sh < cursor →
      matchLen src sh cursor < (find_naive_run src cursor lookback).length) := by
  have hspec := findNaiveFold_spec src cursor (cursor - (cursor - lookback))
    Run.zero (cursor - lookback)
  rw [show findNaiveFold src cursor Run.zero (cursor - lookback)
      (cursor - (cursor - lookback)) = find_naive_run src cursor lookback from rfl] at hspec
  rcases hspec with ⟨heq, hall⟩ | ⟨J, hJ, heq, _, hmax, hlater⟩
  · exfalso
    have h0 : matchLen src (cursor - lookback + 0) cursor < 0 := hall 0 (by omega)
    omega
  · rw [heq]
    refine ⟨?_, ?_, ?_, ?_, ?_⟩
    · show cursor - lookback ≤ cursor - lookback + J
      omega
    · show cursor - lookback + J < cursor
      omega
    · rfl
    · intro sh hsh1 hsh2
      have h := hmax (sh - (cursor - lookback)) (by omega)
      have e : cursor - lookback + (sh - (cursor - lookback)) = sh := by omega
      rw [e] at h
      exact h
    · intro sh hsh1 hsh2
      have hsh1' : cursor - lookback + J < sh := hsh1
      have h := hlater (sh - (cursor - lookback)) (by omega) (by omega)
      have e : cursor - lookback + (sh - (cursor - lookback)) = sh := by omega
      rw [e] at h
      exact h

/-- **C3 — witness** of the amended claim on the tie input `[1, 1, 1]`. -/
theorem c3_latest_tie_break_witness :
    2 - 4096 ≤ (find_naive_run [1, 1, 1] 2 4096).cursor ∧
    (find_naive_run [1, 1, 1] 2 4096).cursor < 2 ∧
    (find_naive_run [1, 1, 1] 2 4096).length =
      matchLen [1, 1, 1] (find_naive_run [1, 1, 1] 2 4096).cursor 2 ∧
    (∀ sh, 2 - 4096 ≤ sh → sh < 2 →
      matchLen [1, 1, 1] sh 2 ≤ (find_naive_run [1, 1, 1] 2 4096).length) ∧
    (∀ sh, (find_naive_run [1, 1, 1] 2 4096).cursor < sh → sh < 2 →
      matchLen [1, 1, 1] sh 2 < (find_naive_run [1, 1, 1] 2 4096).length) :=
  c3_latest_tie_break [1, 1, 1] 2 4096 (by decide) (by decide)

/-- **C4** (confirmed).  Every back-reference the encoder emits is built by
`write_run` from a worthwhile run found by the naive search (the lookahead run
is the naive run at the next cursor, and the cached run is written at exactly
the cursor where it was found).  With a window of at most 4096 the raw
distance field lies in `[0, 4095]`, its magnitude stays below the current
output position (so decoding reads a non-negative index), the encoded copy
length lies in `[3, 273]`, the 2-byte shape carries lengths 3..17 verbatim and
the 3-byte shape carries lengths 18..273 with the true length clipped to
273. -/
theorem c4_packet_bounds (src : List Nat) (cursor lookback : Nat) (r : Run)
    (hlb : lookback ≤ 4096) (hr : r = find_naive_run src cursor lookback)
    (h3 : 3 ≤ r.length) :
    cursor - r.cursor - 1 ≤ 4095 ∧
    cursor - r.cursor - 1 + 1 ≤ cursor ∧
    3 ≤ (write_run cursor r).2 ∧ (write_run cursor r).2 ≤ 273 ∧
    (r.length < 0x12 →
      write_run cursor r =
        ([(r.length - 2) * 16 + (cursor - r.cursor - 1) / 256,
          (cursor - r.cursor - 1) % 256], r.length) ∧ r.length ≤ 17) ∧
    (0x12 ≤ r.length →
      write_run cursor r =
        ([(cursor - r.cursor - 1) / 256, (cursor - r.cursor - 1) % 256,
          min r.length 273 - 0x12], min r.length 273) ∧
      18 ≤ min r.length 273 ∧ min r.length 273 ≤ 273) := by
  subst hr
  obtain ⟨hcur, hwin, hlen, _⟩ := find_naive_run_good src cursor lookback (by omega)
  have hD : cursor - (find_naive_run src cursor lookback).cursor - 1 < 4096 := by omega
  refine ⟨by omega, by omega, write_run_consumed_ge cursor _ h3, ?_, ?_, ?_⟩
  · by_cases h17 : (find_naive_run src cursor lookback).length < 0x12
    · rw [write_run_short cursor _ h3 h17 hD]
      omega
    · rw [write_run_long cursor _ (by omega) hD]
      show min (find_naive_run src cursor lookback).length 273 ≤ 273
      omega
  · intro h17
    exact ⟨write_run_short cursor _ h3 h17 hD, by omega⟩
  · intro h18
    exact ⟨write_run_long cursor _ h18 hD, by omega, by omega⟩

/-- **C4 — witness** on `[5, 6, 7, 5, 6, 7]` at cursor 3, where the naive
search finds the run `⟨0, 3⟩`. -/
theorem c4_packet_bounds_witness :
    3 - (0 : Nat) - 1 ≤ 4095 ∧
    3 - (0 : Nat) - 1 + 1 ≤ 3 ∧
    3 ≤ (write_run 3 ⟨0, 3⟩).2 ∧ (write_run 3 ⟨0, 3⟩).2 ≤ 273 ∧
    ((Run.mk 0 3).length < 0x12 →
      write_run 3 ⟨0, 3⟩ =
        ([((Run.mk 0 3).length - 2) * 16 + (3 - (Run.mk 0 3).cursor - 1) / 256,
          (3 - (Run.mk 0 3).cursor - 1) % 256], (Run.mk 0 3).length) ∧
        (Run.mk 0 3).length ≤ 17) ∧
    (0x12 ≤ (Run.mk 0 3).length →
      write_run 3 ⟨0, 3⟩ =
        ([(3 - (Run.mk 0 3).cursor - 1) / 256, (3 - (Run.mk 0 3).cursor - 1) % 256,
          min (Run.mk 0 3).length 273 - 0x12], min (Run.mk 0 3).length 273) ∧
      18 ≤ min (Run.mk 0 3).length 273 ∧ min (Run.mk 0 3).length 273 ≤ 273) :=
  c4_packet_bounds [5, 6, 7, 5, 6, 7] 3 4096 ⟨0, 3⟩ (by decide) (by decide) (by decide)

/-- **C1 — counterexample.**  The claim ranges over every quality in `[1, 10]`,
but at quality 1 (indeed any quality in `[1, 9]`) the window divisor
`quality / 10` is zero, so `MAX_LOOKBACK / divisor` is an integer division by
zero and the encoder panics before producing an archive: there is nothing to
decompress and the round trip fails. -/
theorem c1_roundtrip_counterexample :
    compress_and_write [12, 34, 56] (.Naive 1) = none ∧
    (1 : Nat) ≤ 1 ∧ (1 : Nat) ≤ 10 := by
  decide

/-- **C1** (corrected: the round trip holds at quality 10, the only quality in
`[1, 10]` whose window divisor is nonzero; either strategy).  For every byte
sequence `b` of representable length, `compress_and_write` succeeds, and
parsing the produced archive's header and decompressing its payload returns
exactly `b`. -/
theorem c1_roundtrip (b : List Nat) (level : CompressionLevel)
    (hq : level.quality = 10) (hb : ∀ x ∈ b, x < 256) (hlen : b.length < 4294967296) :
    ∃ file, compress_and_write b level = some file ∧ archiveDecompress file = some b := by
  have hcl : compress_lookaround b level =
      some (compressLoopF b level 4096 b.length 0 none) := by
    simp only [compress_lookaround, hq]
    norm_num
  have hc : compress b level = some (compressLoopF b level 4096 b.length 0 none).1 := by
    unfold compress
    rw [hcl]
    rfl
  obtain ⟨-, -, -, hdec⟩ := compressLoopF_spec b level 4096 (le_refl 4096) hb
    b.length 0 none (by omega) trivial (by omega)
  obtain ⟨dest', hdecode, hlen', hagree, -⟩ :=
    hdec (List.replicate b.length 0) (by simp) (fun i hi => absurd hi (Nat.not_lt_zero i))
  have hdest : dest' = b := list_eq_of_agrees b dest' (by simpa using hlen') hagree
  obtain ⟨hparse, hdrop⟩ := parse_write_append b.length hlen
    (compressLoopF b level 4096 b.length 0 none).1
  have hdi : decompress_into b.length (compressLoopF b level 4096 b.length 0 none).1
      (List.replicate b.length 0) = some (dest', b.length) := by
    unfold decompress_into
    rw [if_pos (show b.length ≤ (List.replicate b.length 0).length by simp)]
    exact hdecode
  have hdc : decompress b.length (compressLoopF b level 4096 b.length 0 none).1 =
      some dest' := by
    unfold decompress
    rw [hdi]
  refine ⟨Yaz0Header.write ⟨b.length⟩ ++ (compressLoopF b level 4096 b.length 0 none).1,
    ?_, ?_⟩
  · unfold compress_and_write
    rw [hc]
  · unfold archiveDecompress
    rw [hparse]
    show decompress b.length
      ((Yaz0Header.write ⟨b.length⟩ ++
        (compressLoopF b level 4096 b.length 0 none).1).drop 16) = some b
    rw [hdrop, hdc, hdest]

/-- **C1 — witness** on `[12, 34, 56]` at `Naive` quality 10. -/
theorem c1_roundtrip_witness :
    ∃ file, compress_and_write [12, 34, 56] (.Naive 10) = some file ∧
      archiveDecompress file = some [12, 34, 56] :=
  c1_roundtrip [12, 34, 56] (.Naive 10) (by decide) (by decide) (by decide)

/-- **C8** (confirmed).  Whenever the encoder completes, the `read_head`
values of the progress messages, in send order, are non-decreasing (in fact
strictly increasing) and each is at most the input length. -/
theorem c8_progress_monotone (src : List Nat) (level : CompressionLevel)
    (hb : ∀ x ∈ src, x < 256) (enc prog ends : List Nat)
    (h : compress_lookaround src level = some (enc, prog, ends)) :
    List.Pairwise (· ≤ ·) prog ∧ ∀ x ∈ prog, x ≤ src.length := by
  simp only [compress_lookaround] at h
  by_cases hd : level.quality / 10 = 0
  · rw [if_pos hd] at h
    exact Option.noConfusion h
  · rw [if_neg hd] at h
    have h' := Option.some.inj h
    have hprog : (compressLoopF src level (4096 / (level.quality / 10))
        src.length 0 none).2.1 = prog := by rw [h']
    have hends : (compressLoopF src level (4096 / (level.quality / 10))
        src.length 0 none).2.2 = ends := by rw [h']
    obtain ⟨hmem, hpw, hfilter, -⟩ := compressLoopF_spec src level
      (4096 / (level.quality / 10)) (Nat.div_le_self 4096 _) hb
      src.length 0 none (by omega) trivial (by omega)
    rw [hends] at hmem hpw
    rw [hprog, hends] at hfilter
    constructor
    · rw [hfilter]
      exact (hpw.filter _).imp (fun hab => le_of_lt hab)
    · intro x hx
      rw [hfilter] at hx
      exact (hmem x (List.mem_of_mem_filter hx)).2

/-- **C8 — witness**: on ten zero bytes at `Naive` quality 10 the encoder
sends the single message `read_head = 10`. -/
theorem c8_progress_monotone_witness :
    List.Pairwise (· ≤ ·) [10] ∧
      ∀ x ∈ ([10] : List Nat), x ≤ (List.replicate 10 0 : List Nat).length :=
  c8_progress_monotone (List.replicate 10 0) (.Naive 10) (by decide)
    [128, 0, 112, 0] [10] [10] (by decide)

/-- **C9 — counterexample.**  On the non-empty input `[12, 34, 56]` at
quality 10 the encoder completes with a single group, which consumes the final
byte and ends at `read_head = 3`; since `3 % 10 ≠ 0` and the send test
compares against `len - 1 = 2` (not `len`), NO progress message is sent —
the trace is empty — contradicting the claim that a message follows the group
in which the final input byte is consumed. -/
theorem c9_cadence_counterexample :
    compress_lookaround [12, 34, 56] (.Naive 10) = some ([224, 12, 34, 56], [], [3]) ∧
    ([12, 34, 56] : List Nat) ≠ [] ∧ (3 : Nat) = ([12, 34, 56] : List Nat).length := by
  decide

/-- **C9** (corrected).  The progress trace is exactly the subsequence of
8-packet-group end positions `read_head` satisfying the source's literal test
`read_head % 10 == 0 || read_head == src.len() - 1` — NOT "after the group in
which the final byte is consumed": the final group ends at `read_head = len`,
which passes the test only when `len % 10 = 0` (or `len = len - 1`, i.e.
never for non-empty input with `len % 10 ≠ 0`).  The group ends are positive
and bounded by the input length. -/
theorem c9_progress_cadence (src : List Nat) (level : CompressionLevel)
    (hb : ∀ x ∈ src, x < 256) (enc prog ends : List Nat)
    (h : compress_lookaround src level = some (enc, prog, ends)) :
    prog = ends.filter (fun x => decide (x % 10 = 0 ∨ x = src.length - 1)) ∧
    ∀ x ∈ ends, 0 < x ∧ x ≤ src.length := by
  simp only [compress_lookaround] at h
  by_cases hd : level.quality / 10 = 0
  · rw [if_pos hd] at h
    exact Option.noConfusion h
  · rw [if_neg hd] at h
    have h' := Option.some.inj h
    have hprog : (compressLoopF src level (4096 / (level.quality / 10))
        src.length 0 none).2.1 = prog := by rw [h']
    have hends : (compressLoopF src level (4096 / (level.quality / 10))
        src.length 0 none).2.2 = ends := by rw [h']
    obtain ⟨hmem, -, hfilter, -⟩ := compressLoopF_spec src level
      (4096 / (level.quality / 10)) (Nat.div_le_self 4096 _) hb
      src.length 0 none (by omega) trivial (by omega)
    rw [hends] at hmem
    rw [hprog, hends] at hfilter
    exact ⟨hfilter, hmem⟩

/-- **C9 — witness**: on ten zero bytes the single group ends at
`read_head = 10`, `10 % 10 = 0`, and the message `10` is sent. -/
theorem c9_progress_cadence_witness :
    ([10] : List Nat) = [10].filter
      (fun x => decide (x % 10 = 0 ∨ x = (List.replicate 10 0 : List Nat).length - 1)) ∧
    ∀ x ∈ ([10] : List Nat), 0 < x ∧ x ≤ (List.replicate 10 0 : List Nat).length :=
  c9_progress_cadence (List.replicate 10 0) (.Naive 10) (by decide)
    [128, 0, 112, 0] [10] [10] (by decide)

/-- **C10 — counterexample.**  The claim quantifies over EVERY packet stream
on which `decompress_into` succeeds, but the per-packet copy loop never
re-checks `dest_pos < expected_size`: on the stream
`[0x80, 7, 0x30, 0]` (literal `7`, then a distance-0 length-5 back-reference)
with `expected_size = 2` and a 6-byte destination, the decoder succeeds and
writes `7` at index 2 (indeed up to index 5), past `expected_size`. -/
theorem c10_frame_counterexample :
    decompress_into 2 [128, 7, 48, 0] (List.replicate 6 0) =
      some ([7, 7, 7, 7, 7, 7], 6) ∧
    2 < (List.replicate 6 0 : List Nat).length ∧
    (List.replicate 6 0 : List Nat).getD 2 0 ≠ ([7, 7, 7, 7, 7, 7] : List Nat).getD 2 0 := by
  decide

/-- **C10** (corrected: the frame property holds for archives the encoder
itself produces, not for arbitrary streams — a malformed stream can overrun
`expected_size` mid-packet).  For any payload emitted by a completing
`compress_lookaround` run and any destination of length at least
`src.length`, `decompress_into` succeeds, reconstructs `src` below
`src.length`, and leaves every byte at index `src.length` and beyond
unchanged. -/
theorem c10_frame_effect (src : List Nat) (level : CompressionLevel)
    (hb : ∀ x ∈ src, x < 256) (enc prog ends : List Nat)
    (h : compress_lookaround src level = some (enc, prog, ends))
    (dest : List Nat) (hdlen : src.length ≤ dest.length) :
    ∃ dest', decompress_into src.length enc dest = some (dest', src.length) ∧
      dest'.length = dest.length ∧
      (∀ i, i < src.length → dest'.getD i 0 = src.getD i 0) ∧
      ∀ i, src.length ≤ i → dest'.getD i 0 = dest.getD i 0 := by
  simp only [compress_lookaround] at h
  by_cases hd : level.quality / 10 = 0
  · rw [if_pos hd] at h
    exact Option.noConfusion h
  · rw [if_neg hd] at h
    have h' := Option.some.inj h
    have henc : (compressLoopF src level (4096 / (level.quality / 10))
        src.length 0 none).1 = enc := by rw [h']
    obtain ⟨-, -, -, hdec⟩ := compressLoopF_spec src level
      (4096 / (level.quality / 10)) (Nat.div_le_self 4096 _) hb
      src.length 0 none (by omega) trivial (by omega)
    obtain ⟨dest', hdecode, hlen', hagree, hframe⟩ :=
      hdec dest hdlen (fun i hi => absurd hi (Nat.not_lt_zero i))
    rw [henc] at hdecode
    refine ⟨dest', ?_, hlen', hagree, hframe⟩
    unfold decompress_into
    rw [if_pos hdlen]
    exact hdecode

/-- **C10 — witness**: decoding the encoder's archive for `[12, 34, 56]` into
a 5-byte buffer of nines rebuilds the source and keeps the trailing nines. -/
theorem c10_frame_effect_witness :
    ∃ dest', decompress_into ([12, 34, 56] : List Nat).length [224, 12, 34, 56]
        (List.replicate 5 9) = some (dest', ([12, 34, 56] : List Nat).length) ∧
      dest'.length = (List.replicate 5 9 : List Nat).length ∧
      (∀ i, i < ([12, 34, 56] : List Nat).length →
        dest'.getD i 0 = ([12, 34, 56] : List Nat).getD i 0) ∧
      ∀ i, ([12, 34, 56] : List Nat).length ≤ i →
        dest'.getD i 0 = (List.replicate 5 9 : List Nat).getD i 0 :=
  c10_frame_effect [12, 34, 56] (.Naive 10) (by decide) [224, 12, 34, 56] [] [3]
    (by decide) (List.replicate 5 9) (by decide)

/-- **C5** (confirmed).  The decoder's back-reference copy (`copyRun`, the
`for i in 0..copy_len` loop of `decompress_into`) moves one byte at a time in
emission order — each step reads the current buffer, including bytes written
by earlier steps of the same packet — and consequently a back-reference whose
raw distance field is 0 (`run_base = dest_pos - 1`) appends `L` copies of the
immediately preceding output byte. -/
theorem c5_selfoverlap_rle :
    (∀ (dest : List Nat) (rb dp n : Nat), rb < dest.length → dp < dest.length →
      copyRun dest rb dp (n + 1) =
        copyRun (dest.set dp (dest.getD rb 0)) (rb + 1) (dp + 1) n) ∧
    (∀ (dest : List Nat) (dp L : Nat), 1 ≤ dp → dp + L ≤ dest.length →
      ∃ dest', copyRun dest (dp - 1) dp L = some (dest', dp + L) ∧
        ∀ i, i < L → dest'.getD (dp + i) 0 = dest.getD (dp - 1) 0) := by
  constructor
  · intro dest rb dp n h1 h2
    rw [copyRun_succ, if_pos ⟨h1, h2⟩]
  · intro dest dp L hdp hL
    obtain ⟨dest', heq, hlen, hrep, _⟩ :=
      copyRun_rle_aux (dest.getD (dp - 1) 0) L dest (dp - 1) (by omega) rfl
    have e : dp - 1 + 1 = dp := by omega
    rw [e] at heq hrep
    exact ⟨dest', heq, hrep⟩

/-- **C5 — witness**: distance 0, length 3 starting after the byte `7`
replicates it three times. -/
theorem c5_selfoverlap_rle_witness :
    ∃ dest', copyRun [7, 0, 0, 0] (1 - 1) 1 3 = some (dest', 1 + 3) ∧
      ∀ i, i < 3 → dest'.getD (1 + i) 0 = [7, 0, 0, 0].getD (1 - 1) 0 :=
  c5_selfoverlap_rle.2 [7, 0, 0, 0] 1 3 (by decide) (by decide)

end Yaz0
